import Mathlib

/-!
# Verification of the five-year-plan-analysis time-series engine

Shallow embedding, in Lean 4, of the core components of the
`fyp_analysis` package (preprocess transform pipeline, Granger-causality
matrix, exogenous-variable selector, VAR grid search, walk-forward
cross-validation, stationarity guide builder), together with proofs of
the behavioural properties claimed for them.

Conventions used throughout:

* Float values computed by the Python code are modelled exactly as `ℚ`;
  the transcendental pair `np.log` / `np.exp` used by the preprocess
  pipeline is threaded as an explicit function pair about which the
  theorems assume only what holds of the real functions.  Exact
  equalities proved here imply the floating-point tolerance statements
  of the claims.
* Quarterly dates (`pandas` timestamps at quarter-start frequency) are
  modelled as integers, one unit per quarter.
* A missing value (`NaN`) is `Option.none`.
* A raised Python exception is modelled with `Except String`.
-/

namespace FYP

/-! ## Small string utilities

Python string operations used by the code (`str.split`, `str.replace`,
substring membership `in`, slicing) modelled over `String.data`
(`List Char`), exactly code-point for code-point as in Python. -/

/-- Split a character list at every occurrence of the character `c`
(Python `s.split(c)` for a single-character separator). -/
def splitChar (c : Char) : List Char → List (List Char)
  | [] => [[]]
  | a :: rest =>
    let r := splitChar c rest
    if a = c then [] :: r
    else (a :: r.headD []) :: r.tail

/-- Python `s.split(sep)[-1]` for the single-character separator `sep = "."`. -/
def lastDotSegment (s : String) : String :=
  String.mk ((splitChar '.' s.data).getLastD [])

/-- Python `s.split("_")[0]`. -/
def headUnderscoreSegment (s : String) : String :=
  String.mk ((splitChar '_' s.data).headD [])

/-- Python substring membership `sub in s`. -/
def containsSub (s sub : String) : Bool :=
  (List.range (s.data.length + 1)).any fun i => sub.data.isPrefixOf (s.data.drop i)

/-- Left-to-right, non-overlapping replacement of every occurrence of
`pat` by `repl` in a character list (Python `s.replace(pat, repl)`);
`pat` is assumed nonempty (Python's behaviour for an empty pattern is
never exercised by the code).  `fuel` only forces structural
termination; every call below supplies the list's length, which always
suffices because each step consumes at least one character. -/
def replaceList (pat repl : List Char) : ℕ → List Char → List Char
  | _, [] => []
  | 0, l => l
  | fuel + 1, a :: rest =>
    if pat.isPrefixOf (a :: rest) ∧ pat ≠ [] then
      repl ++ replaceList pat repl fuel ((a :: rest).drop pat.length)
    else
      a :: replaceList pat repl fuel rest

/-- Python `s.replace(pat, repl)`. -/
def strReplace (s pat repl : String) : String :=
  String.mk (replaceList pat.data repl.data s.data.length s.data)

/-- Python slicing `s[n:]` (drop the first `n` code points). -/
def strDrop (s : String) (n : ℕ) : String :=
  String.mk (s.data.drop n)

/-- Python slicing `s[:-n]` (drop the last `n` code points). -/
def strDropRight (s : String) (n : ℕ) : String :=
  String.mk (s.data.take (s.data.length - n))

/-- Python `s.startswith(pre)`. -/
def strStartsWith (s pre : String) : Bool :=
  pre.data.isPrefixOf s.data

/-! ## Stable sort and Cartesian product

`sorted(…, key=…)` in Python is a stable ascending sort; `itertools.product`
enumerates the Cartesian product with the first iterable varying slowest.
Both are modelled here and used by the grid-search engine. -/

/-- Insert `x` into a list sorted ascending by `key`, after every element
with a strictly smaller key and before every element with an equal or
larger key.  Together with `sortByKey` this models Python's stable
`sorted(…, key=…)`. -/
def insSorted [LinearOrder β] (key : α → β) (x : α) : List α → List α
  | [] => [x]
  | y :: ys => if key y < key x then y :: insSorted key x ys else x :: y :: ys

/-- Stable ascending sort by a key (Python `sorted(…, key=…)`). -/
def sortByKey [LinearOrder β] (key : α → β) : List α → List α
  | [] => []
  | x :: xs => insSorted key x (sortByKey key xs)

/-- `itertools.product(*values)`: the Cartesian product of a list of
lists, first list varying slowest. -/
def productLists : List (List α) → List (List α)
  | [] => [[]]
  | vs :: rest => vs.flatMap fun v => (productLists rest).map (v :: ·)

/-! ## MAPE scoring (modeling/predict/core.py)

`calculate_mape` and the scoring part of `test_train_var_model`, one
column at a time: a fold is the list of (forecast, actual) pairs of one
test block for that column. -/

/-- `calculate_mape(forecast, actual)` from modeling/predict/core.py:
`((forecast - actual).abs() / actual.abs()).mean()`, per column.  The
pandas mean of an empty series is NaN; the `ℚ` convention `0 / 0 = 0`
stands in for it (the claims below never score an empty series). -/
def calculate_mape (forecast actual : List ℚ) : ℚ :=
  let errs := (forecast.zip actual).map fun fa => |fa.1 - fa.2| / |fa.2|
  errs.sum / errs.length

/-- The scoring tail of `test_train_var_model` (lines 234-290 of
modeling/predict/core.py), per column: the per-split forecasts and
actuals are accumulated, each split contributes
`calculate_mape(unscaled_forecast, actual)` to `mape_vector`, and the
overall `mape` is `calculate_mape` of the concatenations.  Returns
`(mape_vector, mape)`. -/
def test_train_scores (folds : List (List (ℚ × ℚ))) : List ℚ × ℚ :=
  let forecasts := folds.map fun f => f.map Prod.fst
  let actuals := folds.map fun f => f.map Prod.snd
  let mapes := folds.map fun f => calculate_mape (f.map Prod.fst) (f.map Prod.snd)
  (mapes, calculate_mape forecasts.flatten actuals.flatten)

/-- The length-weighted average of the per-fold MAPEs: each fold is
weighted by its number of scored quarters.  This is the quantity the
specification says the overall score equals. -/
def lengthWeightedMape (folds : List (List (ℚ × ℚ))) : ℚ :=
  (folds.map fun f => (f.length : ℚ) * calculate_mape (f.map Prod.fst) (f.map Prod.snd)).sum /
    (folds.map fun f => (f.length : ℚ)).sum

/-- The unweighted arithmetic mean of the per-fold MAPEs (what the
specification says the overall score is *not*). -/
def unweightedFoldMapeMean (folds : List (List (ℚ × ℚ))) : ℚ :=
  (folds.map fun f => calculate_mape (f.map Prod.fst) (f.map Prod.snd)).sum / folds.length

/-! ## Walk-forward splits (sklearn TimeSeriesSplit)

`test_train_var_model` iterates `TimeSeriesSplit(n_splits=n_splits)
.split(scaled_features)`.  Embedded from the library's documented
behaviour (default `test_size`/`gap`): with `n` samples the test size is
`n / (n_splits + 1)` (integer division), the i-th split trains on
positions `[0, firstStart + i*testSize)` and tests on the following
`testSize` positions. -/

/-- `TimeSeriesSplit(n_splits).split(range(nSamples))` as a list of
(train positions, test positions) pairs. -/
def timeSeriesSplit (nSamples nSplits : ℕ) : List (List ℕ × List ℕ) :=
  let testSize := nSamples / (nSplits + 1)
  let firstStart := nSamples - nSplits * testSize
  (List.range nSplits).map fun i =>
    let s := firstStart + i * testSize
    (List.range s, (List.range testSize).map (s + ·))

/-! ## Stationarity guide builder (data_processing/stationary/core.py)

`get_stationary_guide` decides, per column, how many differencing passes
to apply.  The augmented Dickey-Fuller test is an opaque statistical
routine; it is modelled by a parameter `test : List ℚ → Option Bool`
(`none` models `adfuller` raising, e.g. on a too-short series, which in
Python aborts the builder).  The loop operates on the scaled feature
(log or norm-divided, optionally trimmed to exclude 2020); that scaling
happens before the loop and is irrelevant to the differencing-count
claims, so the scaled series is the input here. -/

/-- `pandas.Series.diff(p).dropna()` on a NaN-free series. -/
def diffDrop (p : ℕ) (v : List ℚ) : List ℚ :=
  List.zipWith (· - ·) (v.drop p) v

/-- The differencing loop of `get_stationary_guide` (lines 140-150 of
data_processing/stationary/core.py):

    ndiffs = 0
    while not test_stationarity(feature) or ndiffs < 1:
        if ndiffs == 1 and "Base" in col: break
        feature = feature.diff(periods).dropna()
        ndiffs += 1

`fuel` bounds the recursion (each pass shortens the series, and `test`
returns `none` — `adfuller` raises — once the series is too short, so
any faithful `test` terminates the Python loop; `none` here models both
that exception and fuel exhaustion). -/
def stationaryLoop (test : List ℚ → Option Bool) (isBase : Bool) (p : ℕ) :
    ℕ → List ℚ → ℕ → Option (ℕ × List ℚ)
  | 0, _, _ => none
  | fuel + 1, feature, ndiffs =>
    match test feature with
    | none => none
    | some stat =>
      if ¬stat ∨ ndiffs < 1 then
        if ndiffs == 1 && isBase then some (ndiffs, feature)
        else stationaryLoop test isBase p fuel (diffDrop p feature) (ndiffs + 1)
      else some (ndiffs, feature)

/-- Tax bases differenced year over year rather than quarter over
quarter (`QUARTERLY_YOY` in data_processing/stationary/core.py). -/
def QUARTERLY_YOY : List String := ["GrossReceiptsBase", "NetIncomeBase", "NPTBase"]

/-- The post-loop part of the per-column body of
`get_stationary_guide`: for tax-base columns the stationarity test runs
once more for the diagnostic plot (a `none` there — `adfuller`
raising — aborts the builder before the entry is appended). -/
def guideEntryTail (test : List ℚ → Option Bool) (isBase : Bool) (pp : ℕ) :
    Option (ℕ × List ℚ) → Option (ℕ × ℕ)
  | none => none
  | some (n, feat) =>
    if isBase then
      match test feat with
      | none => none
      | some _ => some (n, pp)
    else some (n, pp)

/-- The per-column body of `get_stationary_guide`: run the differencing
loop on the scaled feature, then `guideEntryTail`.  Returns the
`(ndiffs, periods)` part of the produced guide entry. -/
def get_stationary_guide_entry (test : List ℚ → Option Bool) (col : String)
    (scaledFeature : List ℚ) (fuel : ℕ) : Option (ℕ × ℕ) :=
  let p := if col ∈ QUARTERLY_YOY then 4 else 1
  guideEntryTail test (containsSub col "Base") p
    (stationaryLoop test (containsSub col "Base") p fuel scaledFeature 0)

/-! ## Grid-search engine (modeling/predict/core.py)

`grid_search_var_model` is embedded with the candidate evaluator
(`test_train_var_model` plus all of its statsmodels machinery) as a
parameter `evalTT`; an `Except.error` result of `evalTT` models a Python
exception raised while evaluating that candidate.  The grid values are
heterogeneous Python objects, modelled by an opaque type parameter `α`.
`np.random.seed(seed)` has no observable effect (nothing below it draws
random numbers) and `mp.Pool.map` preserves input order and re-raises a
worker's exception, which is how `List.mapM` over `Except` behaves. -/

/-- One scored grid candidate: the keyword parameters of the fit, the
per-column MAPE series of `test_train_var_model`, and the attached
`target_mape` for the main endogenous column. -/
structure FitResultE (α : Type) where
  kws : List (String × α)
  mape : String → ℚ
  target_mape : ℚ

/-- Required parameter-grid keys of `grid_search_var_model`. -/
def required_params : List String := ["endog_cols", "order", "max_fit_date"]

/-- Optional parameter-grid keys of `grid_search_var_model`. -/
def optional_params : List String := ["exog_cols", "model_quarters"]

/-- The evaluation of a single grid cell inside `_grid_search_parallel`:
build the keyword dictionary, run `test_train_var_model` (`evalTT`),
and attach the keywords and the main-endog MAPE; a raised exception
propagates. -/
def gridCandidateEval (evalTT : List (String × α) → Except String (String → ℚ))
    (param_names : List String) (main_endog : String) (param_set : List α) :
    Except String (FitResultE α) :=
  match evalTT (param_names.zip param_set) with
  | Except.error e => Except.error e
  | Except.ok m =>
    Except.ok { kws := param_names.zip param_set, mape := m,
                target_mape := m main_endog }

/-- `grid_search_var_model` (lines 316-390 of modeling/predict/core.py):
validate the grid keys, enumerate `itertools.product` of the value
lists, evaluate every candidate (`mp.Pool.map` preserves input order
and re-raises a worker's exception, which is `List.mapM` over
`Except`), and return the results sorted ascending by the main-endog
MAPE (Python `sorted`, stable). -/
def grid_search_var_model (evalTT : List (String × α) → Except String (String → ℚ))
    (grid_params : List (String × List α)) (main_endog : String) :
    Except String (List (FitResultE α)) :=
  let param_names := grid_params.map fun p => p.1
  let values := grid_params.map fun p => p.2
  if ¬required_params.all (fun c => param_names.contains c) then
    Except.error "Missing required parameters"
  else if ¬param_names.all (fun c => (required_params ++ optional_params).contains c) then
    Except.error "Extra grid parameters provided"
  else
    match (productLists values).mapM (gridCandidateEval evalTT param_names main_endog) with
    | Except.error e => Except.error e
    | Except.ok fits => Except.ok (sortByKey (fun f => f.target_mape) fits)

/-- The scored candidate `gridCandidateEval` produces for one parameter
tuple when its evaluation succeeds with the MAPE series `score kws`. -/
def scoredCandidate (grid_params : List (String × List α))
    (score : List (String × α) → String → ℚ) (main_endog : String)
    (ps : List α) : FitResultE α :=
  { kws := (grid_params.map fun p => p.1).zip ps,
    mape := score ((grid_params.map fun p => p.1).zip ps),
    target_mape := score ((grid_params.map fun p => p.1).zip ps) main_endog }

/-- A concrete 2 × 1 × 3 × 1 parameter grid (orders × endogenous sets ×
exogenous subsets × fit dates), grid values encoded as naturals. -/
def gridExample : List (String × List ℕ) :=
  [("order", [10, 20]), ("endog_cols", [1]),
   ("exog_cols", [5, 6, 7]), ("max_fit_date", [9])]

/-- A concrete deterministic scoring function for `gridExample`. -/
def scoreExample : List (String × ℕ) → String → ℚ :=
  fun kws _ => ((kws.map fun p => p.2).sum : ℚ)

/-- A candidate evaluator that raises on the candidates with `order = 1`
(modelling an ill-conditioned fit inside `test_train_var_model`) and
succeeds on every other candidate. -/
def evalFailExample : List (String × ℕ) → Except String (String → ℚ) :=
  fun kws =>
    if kws.contains ("order", 1) then Except.error "ill-conditioned fit"
    else Except.ok fun _ => 1 / 2

/-- A grid containing one failing (`order = 1`) and one succeeding
(`order = 2`) candidate under `evalFailExample`. -/
def gridMixedExample : List (String × List ℕ) :=
  [("endog_cols", [0]), ("order", [1, 2]), ("max_fit_date", [3])]

/-- The same grid restricted to the succeeding candidate. -/
def gridGoodExample : List (String × List ℕ) :=
  [("endog_cols", [0]), ("order", [2]), ("max_fit_date", [3])]

/-! ## Granger-causality matrix (forecast_prep/core.py)

`grangers_causation_matrix` calls
`statsmodels.tsa.stattools.grangercausalitytests(data[[r, c]], maxlag)`,
which computes, for each lag, the p-values of four test statistics for
the null hypothesis that the *second* column `c` does not Granger-cause
the *first* column `r`.  That statistical routine is opaque and is
modelled by a parameter `pv`, where `pv y x lag t` is the p-value of
test `t` at lag `lag` for the null "x does not Granger-cause y". -/

/-- The four test statistics reported by `grangercausalitytests`. -/
inductive GTest
  | params_ftest
  | ssr_ftest
  | ssr_chi2test
  | lrtest
deriving DecidableEq

/-- All four Granger test statistics. -/
def allGTests : List GTest := [.params_ftest, .ssr_ftest, .ssr_chi2test, .lrtest]

/-- Python `round(x, 4)` as applied to each extracted p-value.  (Python
rounds half-to-even; the difference to Lean's `round` only shows at
exact midpoints, which never occur below.) -/
def round4 (q : ℚ) : ℚ := (round (q * 10000) : ℤ) / 10000

/-- `np.min` of a nonempty list (`np.min` of an empty array raises; the
`0` default is unreachable for `maxlag ≥ 1`). -/
def minList : List ℚ → ℚ
  | [] => 0
  | a :: rest => rest.foldl min a

/-- A labelled p-value matrix: row labels, column labels, and the cell
values by position (a pandas DataFrame of floats). -/
structure PMat where
  idx : List String
  cols : List String
  cell : ℕ → ℕ → ℚ

/-- `df.loc[r, c]`: label-based lookup; `none` models the `KeyError`
pandas raises for a missing label. -/
def PMat.loc (m : PMat) (r c : String) : Option ℚ := do
  let i ← m.idx.findIdx? (· == r)
  let j ← m.cols.findIdx? (· == c)
  pure (m.cell i j)

/-- The double loop of `grangers_causation_matrix` fills each cell of
`df` exactly once: `df.loc[r, c]` becomes the minimum over lags
`1..maxlag` of the rounded p-value of the configured `test` for the
pair `data[[r, c]]` (i.e. for "c Granger-causes r"). -/
def gcFillCell (pv : String → String → ℕ → GTest → ℚ) (varList : List String)
    (test : GTest) (maxlag : ℕ) (i j : ℕ) : ℚ :=
  minList ((List.range maxlag).map fun l =>
    round4 (pv (varList.getD i "") (varList.getD j "") (l + 1) test))

/-- Relabel a matrix (assignment to `df.index` / `df.columns`). -/
def PMat.withLabels (m : PMat) (newIdx newCols : List String) : PMat :=
  { idx := newIdx, cols := newCols, cell := m.cell }

/-- `df.T`. -/
def PMat.transpose (m : PMat) : PMat :=
  { idx := m.cols, cols := m.idx, cell := fun i j => m.cell j i }

/-- `grangers_causation_matrix` (lines 78-144 of forecast_prep/core.py):
fill the square frame over `variables`, give columns the `_x` and rows
the `_y` suffix, and return the transpose.  The `test` argument is the
single statistic extracted from each lag's results (the Python default
is the string "ssr_chi2test"). -/
def grangers_causation_matrix (pv : String → String → ℕ → GTest → ℚ)
    (varList : List String) (test : GTest) (maxlag : ℕ) : PMat :=
  let df : PMat := { idx := varList, cols := varList,
                     cell := gcFillCell pv varList test maxlag }
  let df := df.withLabels (varList.map (· ++ "_y")) (varList.map (· ++ "_x"))
  df.transpose

/-- The cell value the specification describes: the minimum p-value
among all four test statistics over lags `1..maxlag` for
"driver Granger-causes target" (stated without rounding). -/
def specGrangersCellFourTests (pv : String → String → ℕ → GTest → ℚ)
    (target driver : String) (maxlag : ℕ) : ℚ :=
  minList (allGTests.flatMap fun t =>
    (List.range maxlag).map fun l => pv target driver (l + 1) t)

/-- A concrete asymmetric p-value oracle over the variables "A" and
"B": the four tests disagree on "B causes A" (`ssr_chi2test` gives 0.3,
the others 0.1), and "A causes B" has p-value 0.4. -/
def pvEx : String → String → ℕ → GTest → ℚ := fun y x _ t =>
  if y = "A" ∧ x = "B" then (if t = GTest.ssr_chi2test then 3 / 10 else 1 / 10)
  else if y = "B" ∧ x = "A" then 2 / 5
  else 9 / 10

/-! ## Exogenous-variable selector (modeling/predict/utils.py) -/

/-- `get_features_col(columns, col, how)`: first column matching `col`,
by suffix or substring; raises on an unknown `how` or no match. -/
def get_features_col (columns : List String) (col : String) (how : String) :
    Except String String :=
  if how = "endswith" ∨ how = "contains" then
    let matcher : String → String → Bool :=
      if how = "endswith" then fun a b => b.data.isSuffixOf a.data
      else fun a b => containsSub a b
    match columns.filter (fun c => matcher c col) with
    | [] => Except.error ("No such column: " ++ col)
    | m :: _ => Except.ok m
  else Except.error "Unknown how"

/-- The inner `_run` of `get_possible_exog_variables` (lines 94-123 of
modeling/predict/utils.py) for one endogenous target column: forward
significance at level `alpha`, restriction to the CBO allow-list, and a
reverse-direction cut against the literal constant `0.05`. -/
def exogRun (grangers : PMat) (col0 : String) (cbo_columns : List String)
    (alpha : ℚ) : Except String (List String) :=
  match get_features_col grangers.cols col0 "contains" with
  | Except.error e => Except.error e
  | Except.ok col =>
    let j := (grangers.cols.findIdx? (· == col)).getD 0
    -- forward_g = grangers[col].sort_values(); keep p < alpha
    let fwd := (List.range grangers.idx.length).map fun i =>
      (grangers.idx.getD i "", grangers.cell i j)
    let forward1 := (sortByKey (fun p => p.2) fwd).filter fun p => p.2 < alpha
    -- trim to CBO columns
    let forward2 := forward1.filter fun p =>
      cbo_columns.contains (headUnderscoreSegment (lastDotSegment p.1))
    -- reverse lookups grangers.loc[col_x, c_y]; a missing label is a KeyError
    match forward2.mapM (fun p =>
      match grangers.loc (strReplace col "_y" "_x") (strReplace p.1 "_x" "_y") with
      | none => (Except.error "KeyError" : Except String (String × ℚ))
      | some q => Except.ok (strReplace p.1 "_x" "_y", q)) with
    | Except.error e => Except.error e
    | Except.ok reverse_g =>
      let reverse_g := sortByKey (fun p => p.2) reverse_g
      -- we want NOT significant here; the threshold is the literal 0.05
      let significant_one_way :=
        (reverse_g.filter fun p => p.2 ≥ 5 / 100).map fun p => p.1
      Except.ok (significant_one_way.map fun c => strDropRight (lastDotSegment c) 2)

/-- `get_possible_exog_variables` (lines 67-141 of
modeling/predict/utils.py): run the per-target selection, intersect the
per-target candidate sets, and defensively check the result against the
allow-list.  Python `set`s are modelled by lists up to membership (the
Python function returns `list(set(...))`, whose order is arbitrary). -/
def get_possible_exog_variables (grangers : PMat) (endog_cols : List String)
    (cbo_columns : List String) (alpha : ℚ) : Except String (List String) :=
  match endog_cols.mapM (fun col => exogRun grangers col cbo_columns alpha) with
  | Except.error e => Except.error e
  | Except.ok possible =>
    match possible with
    | [] => Except.error "IndexError"     -- possible[0] of an empty list
    | p0 :: _ =>
      let allowed := possible.foldl (fun acc p => acc.filter fun c => p.contains c) p0
      if ¬allowed.all (fun c => cbo_columns.contains c) then
        Except.error "Error: invalid exog variables"
      else Except.ok allowed

/-- The selection rule the specification describes for a single target:
a driver is selected iff its forward p-value is below `alpha`, it is on
the allow-list, and its reverse p-value is at least `alpha` (the same
threshold in both directions). -/
def specExogRuleBothAlpha (forwardP reverseP : ℚ) (onAllowList : Bool)
    (alpha : ℚ) : Prop :=
  forwardP < alpha ∧ onAllowList = true ∧ reverseP ≥ alpha

/-- A two-variable Granger matrix over the variables `["T", "D"]`
(rows/columns in that order): the p-value for "D causes T" is `fwdP`,
for "T causes D" it is `revP`, and the self-pair cells are `diag`. -/
def cellTwoVar (fwdP revP diag : ℚ) : ℕ → ℕ → ℚ :=
  fun i j => if i = 1 ∧ j = 0 then fwdP else if i = 0 ∧ j = 1 then revP else diag

/-! ## Preprocess pipeline (data_processing/preprocess/core.py)

`PreprocessPipeline` scales each column (log, or division by a
normalization constant), differences it `ndiffs` times, and can invert
the whole transformation by cumulative summation seeded from the stored
baseline.  `np.log` / `np.exp` are transcendental library functions; the
embedding keeps an exact value type `ℚ` and threads the pair of
functions as an explicit parameter `L`, about which the round-trip
theorems assume only what is true of the real pair (that `exp` undoes
`log` on positive inputs). -/

/-- The `np.log` / `np.exp` pair used by the pipeline. -/
structure LogModel where
  log : ℚ → ℚ
  exp : ℚ → ℚ

/-- One row of the stationarity-guide DataFrame; `varName` is its
"variable" column. -/
structure GuideEntry where
  varName : String
  loggable : Bool
  norm : ℚ
  ndiffs : ℕ
  periods : ℕ

/-- `self.guide_.query(f"variable == '{col}'").squeeze()`: the (first)
guide row for a column; `none` models the lookup failing on a column
absent from the guide. -/
def guideFor (g : List GuideEntry) (col : String) : Option GuideEntry :=
  g.find? fun e => e.varName == col

/-- The contiguous quarterly range `b, b+1, …, b+n-1`. -/
def qrange (b : ℤ) (n : ℕ) : List ℤ := (List.range n).map fun i : ℕ => b + (i : ℤ)

/-- A dated table: `idx` is the list of dates on which rows exist and
each column is a name together with its values by date (`none` = NaN;
values at dates outside `idx` are ignored by every accessor). -/
structure DataFrame where
  idx : List ℤ
  cols : List (String × (ℤ → Option ℚ))

/-- The column names of a frame. -/
def DataFrame.names (F : DataFrame) : List String := F.cols.map fun p => p.1

/-- `F[c][d]`: the value of column `c` at date `d` (`none` when the
row or the column does not exist, or the entry is NaN). -/
def DataFrame.get (F : DataFrame) (c : String) (d : ℤ) : Option ℚ :=
  if d ∈ F.idx then
    match F.cols.find? (fun p => p.1 == c) with
    | some p => p.2 d
    | none => none
  else none

/-- The index produced by `.asfreq("QS")`: the complete contiguous
quarterly range from the smallest to the largest existing date. -/
def asfreqIdx (idx : List ℤ) : List ℤ :=
  match idx.min?, idx.max? with
  | some a, some b => qrange a (b - a + 1).toNat
  | _, _ => []

/-- `X.asfreq("QS")`: complete the index to the full quarterly range;
rows not previously present read as NaN. -/
def DataFrame.asfreqQS (F : DataFrame) : DataFrame :=
  { idx := asfreqIdx F.idx,
    cols := F.cols.map fun p => (p.1, fun d => if d ∈ F.idx then p.2 d else none) }

/-- `pandas.Series.diff(p)` on a series over the row index `idx`:
the value at row `i` becomes `v[i] - v[i-p]` (positional shift; NaN for
the first `p` rows and whenever either operand is NaN). -/
def diffP (p : ℕ) (idx : List ℤ) (f : ℤ → Option ℚ) : ℤ → Option ℚ := fun d =>
  match idx.findIdx? (· == d) with
  | none => none
  | some i =>
    if i < p then none
    else
      match f d, f (idx.getD (i - p) 0) with
      | some a, some b => some (a - b)
      | _, _ => none

/-- `n` successive applications of `.diff(p)`. -/
def diffPN (n p : ℕ) (idx : List ℤ) (f : ℤ → Option ℚ) : ℤ → Option ℚ :=
  match n with
  | 0 => f
  | n + 1 => diffP p idx (diffPN n p idx f)

/-- The per-value scaling of `transform`: log a loggable column, divide
the rest by the guide's `norm`. -/
def scaleVal (L : LogModel) (e : GuideEntry) (v : ℚ) : ℚ :=
  if e.loggable then L.log v else v / e.norm

/-- The `"D."` prefixes accumulated by the differencing loop. -/
def dMark : ℕ → String → String
  | 0, s => s
  | n + 1, s => "D." ++ dMark n s

/-- The output name of a transformed column: `ndiffs` copies of `"D."`
in front of the name, which got an `"Ln."` prefix if the column was
logged. -/
def transformedName (e : GuideEntry) (c : String) : String :=
  dMark e.ndiffs (if e.loggable then "Ln." ++ c else c)

/-- The per-column body of `transform`: scale, then difference `ndiffs`
times over the (asfreq'd) row index. -/
def transformCol (L : LogModel) (e : GuideEntry) (idx : List ℤ)
    (f : ℤ → Option ℚ) : ℤ → Option ℚ :=
  diffPN e.ndiffs e.periods idx fun d => (f d).map (scaleVal L e)

/-- `PreprocessPipeline.transform` (lines 69-104 of
data_processing/preprocess/core.py): `asfreq("QS")`, per-column scale
and difference, then `out.dropna()` — which drops every row containing
*any* NaN.  `none` models the `KeyError` raised when a column has no
guide row. -/
def PreprocessPipeline_transform (L : LogModel) (g : List GuideEntry)
    (X : DataFrame) : Option DataFrame :=
  let out := X.asfreqQS
  match out.cols.mapM (fun p => (guideFor g p.1).map fun e =>
      (transformedName e p.1, transformCol L e out.idx p.2)) with
  | none => none
  | some cols2 =>
    some { idx := out.idx.filter fun d => cols2.all fun q => (q.2 d).isSome,
           cols := cols2 }

/-- The transform the specification describes, identical except that
`dropna` keeps any row with at least one surviving value (drops only
the rows that become *all*-NaN). -/
def specTransform_dropAllNaN (L : LogModel) (g : List GuideEntry)
    (X : DataFrame) : Option DataFrame :=
  let out := X.asfreqQS
  match out.cols.mapM (fun p => (guideFor g p.1).map fun e =>
      (transformedName e p.1, transformCol L e out.idx p.2)) with
  | none => none
  | some cols2 =>
    some { idx := out.idx.filter fun d => cols2.any fun q => (q.2 d).isSome,
           cols := cols2 }

/-- A dated series (one column extracted from a frame). -/
structure QSeries where
  idx : List ℤ
  val : ℤ → Option ℚ

/-- The sorted union of two row indexes (`pd.concat(axis=1)` joins on
the union of the indexes, sorted ascending). -/
def sortedUnion (a b : List ℤ) : List ℤ :=
  sortByKey (fun d => d) ((a ++ b).dedup)

/-- The in-place cumulative reconstruction walk of `inverse_transform`:

    for dt in M.loc[start_date:].index:
        shifted_index = dt - periods * M.index.freq
        M.loc[dt, col] = M.loc[dt, col] + M.loc[shifted_index, col]

applied over the dates of `toProcess` in increasing order.  A
`shifted_index` absent from `M`'s index raises a `KeyError` in pandas;
it is modelled as a missing value, and every theorem below only
evaluates walks in which each needed label is present. -/
def walkAdd (p : ℕ) (Mdates : List ℤ) : List ℤ → (ℤ → Option ℚ) → ℤ → Option ℚ
  | [], v => v
  | d :: rest, v =>
    walkAdd p Mdates rest fun d2 =>
      if d2 = d then
        match v d, if (d - (p : ℤ)) ∈ Mdates then v (d - (p : ℤ)) else none with
        | some a, some b => some (a + b)
        | _, _ => none
      else v d2

/-- One iteration of the `while ndiffs > 0` loop of `inverse_transform`
(lines 141-168 of data_processing/preprocess/core.py), entered with the
loop counter at `kcur`: rebuild `M` from the scaled baseline column
`f0` and the current `feature`, drop all-NaN rows, difference the
baseline column `kcur - 1` times inside `M`, check for overlap, fill,
walk, and trim the result to the input's index `Xidx`. -/
def invStep (e : GuideEntry) (f0 : QSeries) (Xidx : List ℤ) (kcur : ℕ)
    (feature : QSeries) : Except String QSeries :=
  let f0v : ℤ → Option ℚ := fun d => if d ∈ f0.idx then f0.val d else none
  let ftv : ℤ → Option ℚ := fun d => if d ∈ feature.idx then feature.val d else none
  -- M = pd.concat([feature0, feature], axis=1).dropna(how="all")
  let Mdates := (sortedUnion f0.idx feature.idx).filter fun d =>
    (f0v d).isSome || (ftv d).isSome
  -- for i in range(0, ndiffs - 1): M[origcol] = M[origcol].diff(periods)
  let M0d := diffPN (kcur - 1) e.periods Mdates fun d =>
    if d ∈ Mdates then f0v d else none
  -- require overlap between the input and the original data
  if ¬Mdates.any (fun d => (M0d d).isSome && (ftv d).isSome) then
    Except.error "No overlap between input and original datasets"
  else
    let fv : ℤ → Option ℚ := fun d => if d ∈ Mdates then ftv d else none
    -- start_date = M[col].dropna().index.min()
    let start_date := (Mdates.filter fun d => (fv d).isSome).headD 0
    -- M[col] = M[col].fillna(M[origcol])
    let filled : ℤ → Option ℚ := fun d =>
      if d ∈ Mdates then (fv d).orElse fun _ => M0d d else none
    let walked := walkAdd e.periods Mdates (Mdates.filter fun d => start_date ≤ d) filled
    -- feature = M[col].copy(); feature = feature.loc[X.index]
    Except.ok { idx := Xidx, val := fun d => if d ∈ Xidx ∧ d ∈ Mdates then walked d else none }

/-- The whole `while ndiffs > 0` loop, counting down from the guide's
`ndiffs`. -/
def invLoop (e : GuideEntry) (f0 : QSeries) (Xidx : List ℤ) :
    ℕ → QSeries → Except String QSeries
  | 0, feature => Except.ok feature
  | k + 1, feature => do
    let f2 ← invStep e f0 Xidx (k + 1) feature
    invLoop e f0 Xidx k f2

/-- The per-column body of `inverse_transform`: recover the original
column name from the segment after the last dot, look up the guide and
the baseline column, scale the baseline, run the un-differencing loop,
then undo the log (if the remaining name starts with `"Ln."`) and the
normalization (`feature *= guide["norm"]` is applied unconditionally,
exactly as in the source). -/
def inverseCol (L : LogModel) (g : List GuideEntry) (X0 : DataFrame)
    (Xidx outIdx : List ℤ) (c : String) (f : ℤ → Option ℚ) :
    Except String (String × QSeries) :=
  let origcol := lastDotSegment c
  if ¬X0.names.contains origcol then Except.error ("Unknown column: " ++ c)
  else
    match guideFor g origcol with
    | none => Except.error "KeyError: no guide row"
    | some e =>
      let f0 : QSeries :=
        { idx := X0.idx,
          val := fun d => (X0.get origcol d).map fun v =>
            if e.loggable then L.log v else v / e.norm }
      let featInit : QSeries :=
        { idx := outIdx, val := fun d => if d ∈ outIdx then f d else none }
      match invLoop e f0 Xidx e.ndiffs featInit with
      | Except.error msg => Except.error msg
      | Except.ok feat =>
        -- newcol lost one "D." per loop iteration (newcol = newcol[2:])
        let newcol := strDrop c (2 * e.ndiffs)
        let withExp : String × QSeries :=
          if strStartsWith newcol "Ln." then
            (strDrop newcol 3,
             { idx := feat.idx, val := fun d => (feat.val d).map L.exp })
          else (newcol, feat)
        Except.ok (withExp.1,
          { idx := withExp.2.idx, val := fun d => (withExp.2.val d).map (· * e.norm) })

/-- `PreprocessPipeline.inverse_transform` (lines 106-177 of
data_processing/preprocess/core.py): `asfreq("QS")` the input, invert
each column against the stored baseline `X0` (`self.X0_`, already
asfreq'd by `fit`), and assemble the output frame on the asfreq'd
index.  The first failing column's exception propagates. -/
def PreprocessPipeline_inverse_transform (L : LogModel) (g : List GuideEntry)
    (X0 : DataFrame) (X : DataFrame) : Except String DataFrame :=
  let out := X.asfreqQS
  match out.cols.mapM (fun p => inverseCol L g X0 X.idx out.idx p.1 p.2) with
  | Except.error m => Except.error m
  | Except.ok cols2 =>
    Except.ok { idx := out.idx,
                cols := cols2.map fun q =>
                  (q.1, fun d => if d ∈ q.2.idx then q.2.val d else none) }

/-- `PreprocessPipeline.fit`: store `X.asfreq("QS")` as the baseline
after validating the columns against the guide. -/
def PreprocessPipeline_fit (g : List GuideEntry) (X : DataFrame) :
    Except String DataFrame :=
  if ¬X.names.all (fun c => (g.map fun e => e.varName).contains c) then
    Except.error "There are unknown columns in input data"
  else Except.ok X.asfreqQS

/-- `inverse_transform(transform(x))` for a pipeline whose stored
baseline (`self.X0_`) is `X0fitted`. -/
def roundTripResult (L : LogModel) (g : List GuideEntry) (X0fitted : DataFrame)
    (x : DataFrame) : Except String DataFrame :=
  match PreprocessPipeline_transform L g x with
  | none => Except.error "KeyError: no guide row"
  | some T => PreprocessPipeline_inverse_transform L g X0fitted T

/-- The round-trip law as the specification states it: the composite
succeeds and returns, for every column and every date of `x`, a value
within `1e-6` relative tolerance of `x`'s value there. -/
def spec_roundtrip_claim (L : LogModel) (g : List GuideEntry)
    (X0fitted : DataFrame) (x : DataFrame) : Prop :=
  ∃ R, roundTripResult L g X0fitted x = Except.ok R ∧
    ∀ c ∈ x.names, ∀ d ∈ x.idx, ∀ v, x.get c d = some v →
      ∃ r, R.get c d = some r ∧ |r - v| ≤ 1 / 1000000 * |v|

/-- The largest `ndiffs * periods` over the named columns: the number
of leading rows that differencing turns into NaN on a clean table. -/
def maxDiffSpan (g : List GuideEntry) (names : List String) : ℕ :=
  (names.map fun c =>
    match guideFor g c with
    | some e => e.ndiffs * e.periods
    | none => 0).foldr max 0

/-- The exact finite-difference operator at shift `p` on total series. -/
def dOp (p : ℕ) (φ : ℤ → ℚ) : ℤ → ℚ := fun d => φ d - φ (d - (p : ℤ))

/-- `k` iterations of the difference operator. -/
def dIter (p : ℕ) : ℕ → (ℤ → ℚ) → ℤ → ℚ
  | 0, φ => φ
  | k + 1, φ => dOp p (dIter p k φ)

/-- The canonical shape of a differenced column over a contiguous index:
defined (with value `φ d`) exactly on the dates of `qrange b N` that lie
at least `m` steps after the start, NaN elsewhere. -/
def winVal (b : ℤ) (N m : ℕ) (φ : ℤ → ℚ) : ℤ → Option ℚ := fun d =>
  if d ∈ qrange b N ∧ b + (m : ℤ) ≤ d then some (φ d) else none

/-! Concrete instances for the preprocessing claims. -/

/-- The identity log model (legitimate: `exp ∘ log = id` is all the
round-trip theorems assume). -/
def LId : LogModel := ⟨id, id⟩

/-- The guide row of the specification's scenario:
`loggable=False, norm=100, ndiffs=1, periods=1`. -/
def eA1 : GuideEntry := ⟨"A", false, 100, 1, 1⟩

/-- The scenario series [100, 110, 121, 133.1] on four quarters. -/
def fC8 : ℤ → Option ℚ := fun d =>
  if d = 0 then some 100 else if d = 1 then some 110
  else if d = 2 then some 121 else if d = 3 then some (1331 / 10) else none

/-- The scenario table. -/
def XC8 : DataFrame := ⟨[0, 1, 2, 3], [("A", fC8)]⟩

/-- The scenario guide. -/
def gC8 : List GuideEntry := [eA1]

/-- A second guide row differencing twice (for the dropna counterexample). -/
def eB2 : GuideEntry := ⟨"B", false, 1, 2, 1⟩

/-- Column values 1, 2, 4 on three quarters. -/
def fA3 : ℤ → Option ℚ := fun d =>
  if d = 0 then some 1 else if d = 1 then some 2 else if d = 2 then some 4 else none

/-- Column values 1, 3, 9 on three quarters. -/
def fB3 : ℤ → Option ℚ := fun d =>
  if d = 0 then some 1 else if d = 1 then some 3 else if d = 2 then some 9 else none

/-- A two-column table on which `ndiffs` differs between the columns, so
that after differencing the row at date 1 has a NaN in column B but a
value in column A. -/
def XC8b : DataFrame := ⟨[0, 1, 2], [("A", fA3), ("B", fB3)]⟩

/-- The guide for `XC8b`. -/
def gC8b : List GuideEntry := [eA1, eB2]

/-- The baseline table of the round-trip counterexample: A = 100, 110 on
quarters 0, 1. -/
def x0ce : DataFrame :=
  ⟨[0, 1], [("A", fun d => if d = 0 then some 100 else if d = 1 then some 110 else none)]⟩

/-- A suffix-contiguous continuation of the baseline's index (quarters
0, 1, 2) carrying different values 50, 55, 60. -/
def xce : DataFrame :=
  ⟨[0, 1, 2], [("A", fun d =>
    if d = 0 then some 50 else if d = 1 then some 55
    else if d = 2 then some 60 else none)]⟩

/-- The total series 100, 110, 121 (and 121 beyond), for the round-trip
witness. -/
def phiC1 : ℤ → ℚ := fun d => if d = 0 then 100 else if d = 1 then 110 else 121

/-! # Theorems -/

/-! ## Generic list lemmas -/

theorem zip_fst_snd (l : List (α × β)) : (l.map Prod.fst).zip (l.map Prod.snd) = l := by
  rw [List.zip_map']
  simp

/-- `calculate_mape` on the two projections of a list of pairs. -/
theorem mape_fold (f : List (ℚ × ℚ)) :
    calculate_mape (f.map Prod.fst) (f.map Prod.snd) =
      (f.map fun fa => |fa.1 - fa.2| / |fa.2|).sum / (f.length : ℚ) := by
  unfold calculate_mape
  rw [zip_fst_snd]
  simp

theorem sum_cast_len (folds : List (List (ℚ × ℚ))) :
    (folds.map fun f => (f.length : ℚ)).sum = ((folds.map fun f => f.length).sum : ℕ) := by
  induction folds with
  | nil => simp
  | cons a l ih => simp [ih]

/-! ## Stable-sort and Cartesian-product lemmas -/

theorem insSorted_perm [LinearOrder β] (key : α → β) (x : α) :
    ∀ l : List α, List.Perm (insSorted key x l) (x :: l) := by
  intro l
  induction l with
  | nil => rfl
  | cons y ys ih =>
    unfold insSorted
    by_cases hc : key y < key x
    · rw [if_pos hc]
      exact (ih.cons y).trans (List.Perm.swap x y ys)
    · rw [if_neg hc]

theorem sortByKey_perm [LinearOrder β] (key : α → β) :
    ∀ l : List α, List.Perm (sortByKey key l) l := by
  intro l
  induction l with
  | nil => rfl
  | cons x xs ih => exact (insSorted_perm key x _).trans (ih.cons x)

theorem mem_insSorted [LinearOrder β] (key : α → β) (x a : α) (l : List α) :
    a ∈ insSorted key x l ↔ a = x ∨ a ∈ l := by
  rw [(insSorted_perm key x l).mem_iff]
  simp

theorem insSorted_sorted [LinearOrder β] (key : α → β) (x : α) :
    ∀ l : List α, List.Pairwise (fun a b => key a ≤ key b) l →
      List.Pairwise (fun a b => key a ≤ key b) (insSorted key x l) := by
  intro l
  induction l with
  | nil => intro _; simp [insSorted]
  | cons y ys ih =>
    intro hp
    rw [List.pairwise_cons] at hp
    unfold insSorted
    by_cases hc : key y < key x
    · rw [if_pos hc]
      rw [List.pairwise_cons]
      refine ⟨?_, ih hp.2⟩
      intro a ha
      rw [mem_insSorted] at ha
      rcases ha with rfl | ha
      · exact le_of_lt hc
      · exact hp.1 a ha
    · rw [if_neg hc]
      rw [List.pairwise_cons]
      refine ⟨?_, List.pairwise_cons.mpr hp⟩
      intro a ha
      rcases List.mem_cons.mp ha with rfl | ha
      · exact le_of_not_lt hc
      · exact le_trans (le_of_not_lt hc) (hp.1 a ha)

theorem sortByKey_sorted [LinearOrder β] (key : α → β) :
    ∀ l : List α, List.Pairwise (fun a b => key a ≤ key b) (sortByKey key l) := by
  intro l
  induction l with
  | nil => simp [sortByKey]
  | cons x xs ih => exact insSorted_sorted key x _ ih

/-- Stability of the insertion step: the sublist of any fixed key value
is unchanged except that `x` (when it has that key) lands in front of
the equal-key elements already present — which entered later in the
original order. -/
theorem insSorted_filter [LinearOrder β] [DecidableEq β] (key : α → β) (x : α) (q : β) :
    ∀ l : List α, List.Pairwise (fun a b => key a ≤ key b) l →
      (insSorted key x l).filter (fun a => decide (key a = q)) =
        if key x = q then x :: l.filter (fun a => decide (key a = q))
        else l.filter (fun a => decide (key a = q)) := by
  intro l
  induction l with
  | nil =>
    intro _
    by_cases hq : key x = q <;> simp [insSorted, hq]
  | cons y ys ih =>
    intro hp
    rw [List.pairwise_cons] at hp
    unfold insSorted
    by_cases hc : key y < key x
    · rw [if_pos hc]
      by_cases hq : key x = q
      · have hyq : ¬(key y = q) := by
          intro hE
          rw [hE, ← hq] at hc
          exact lt_irrefl _ hc
        simp [List.filter_cons, hyq, hq, ih hp.2]
      · simp [List.filter_cons, hq, ih hp.2]
    · rw [if_neg hc]
      by_cases hq : key x = q
      · simp [List.filter_cons, hq]
      · simp [List.filter_cons, hq]

/-- Stability of the sort: the elements of any fixed key value appear
in their original order (Python `sorted` is stable). -/
theorem sortByKey_filter [LinearOrder β] [DecidableEq β] (key : α → β) (q : β) :
    ∀ l : List α, (sortByKey key l).filter (fun a => decide (key a = q)) =
      l.filter (fun a => decide (key a = q)) := by
  intro l
  induction l with
  | nil => rfl
  | cons x xs ih =>
    unfold sortByKey
    rw [insSorted_filter key x q _ (sortByKey_sorted key xs), ih]
    by_cases hq : key x = q
    · simp [List.filter_cons, hq]
    · simp [List.filter_cons, hq]

theorem productLists_length (L : List (List α)) :
    (productLists L).length = (L.map List.length).prod := by
  induction L with
  | nil => rfl
  | cons vs rest ih =>
    unfold productLists
    rw [List.length_flatMap]
    have h1 : (vs.map (List.length ∘ fun v => (productLists rest).map (v :: ·))) =
        List.replicate vs.length (productLists rest).length := by
      rw [show (List.length ∘ fun v : α => (productLists rest).map (v :: ·)) =
          fun _ : α => (productLists rest).length from funext fun v => by simp,
        List.map_const']
    rw [h1, List.sum_replicate, smul_eq_mul, ih, List.map_cons, List.prod_cons]

/-- `mapM` over `Except` with a function succeeding on every element. -/
theorem mapM_ok {ε : Type} (f : α → Except ε γ) (g : α → γ) :
    ∀ l : List α, (∀ a ∈ l, f a = Except.ok (g a)) →
      l.mapM f = Except.ok (l.map g) := by
  intro l
  induction l with
  | nil => intro _; rfl
  | cons x xs ih =>
    intro h
    rw [List.mapM_cons, h x (List.mem_cons_self x xs),
      ih fun a ha => h a (List.mem_cons_of_mem x ha)]
    rfl

/-- `mapM` over `Except` succeeds iff every element does. -/
theorem mapM_isOk {ε : Type} (f : α → Except ε γ) :
    ∀ l : List α, (∃ r, l.mapM f = Except.ok r) ↔ ∀ a ∈ l, ∃ b, f a = Except.ok b := by
  intro l
  induction l with
  | nil => simp [List.mapM_nil]; exact ⟨[], rfl⟩
  | cons x xs ih =>
    rw [List.mapM_cons]
    constructor
    · rintro ⟨r, hr⟩
      cases hfx : f x with
      | error e => rw [hfx] at hr; exact absurd hr (by simp [Bind.bind, Except.bind])
      | ok b =>
        rw [hfx] at hr
        have hxs : ∃ r2, xs.mapM f = Except.ok r2 := by
          cases hms : xs.mapM f with
          | error e =>
            rw [hms] at hr
            exact absurd hr (by simp [Bind.bind, Except.bind])
          | ok r2 => exact ⟨r2, rfl⟩
        intro a ha
        rcases List.mem_cons.mp ha with rfl | ha
        · exact ⟨b, hfx⟩
        · exact (ih.mp hxs) a ha
    · intro hall
      obtain ⟨b, hb⟩ := hall x (List.mem_cons_self x xs)
      obtain ⟨r2, hr2⟩ := ih.mpr fun a ha => hall a (List.mem_cons_of_mem x ha)
      refine ⟨b :: r2, ?_⟩
      rw [hb, hr2]
      rfl

/-! ## C7: the overall walk-forward score -/

/-- C7: for every evaluated candidate the overall score returned by
`test_train_var_model` is the MAPE of the concatenation of all
out-of-sample folds — equivalently, the length-weighted average of the
per-fold MAPEs — and not, as the concrete unequal-length instance in the
last conjunct shows, the unweighted arithmetic mean of the per-fold
MAPEs. -/
theorem C7_overall_mape_is_concatenation (folds : List (List (ℚ × ℚ))) :
    (test_train_scores folds).2 =
      calculate_mape (folds.flatten.map Prod.fst) (folds.flatten.map Prod.snd) ∧
    (test_train_scores folds).2 = lengthWeightedMape folds ∧
    (test_train_scores [[(2, 1)], [(1, 1), (1, 1)]]).2 ≠
      unweightedFoldMapeMean [[(2, 1)], [(1, 1), (1, 1)]] := by
  refine ⟨?_, ?_, by norm_num [test_train_scores, unweightedFoldMapeMean, calculate_mape]⟩
  · unfold test_train_scores
    simp only [← List.map_flatten]
  · unfold test_train_scores lengthWeightedMape
    simp only
    have h1 : (List.map (fun f : List (ℚ × ℚ) => List.map Prod.fst f) folds).flatten
        = folds.flatten.map Prod.fst := (List.map_flatten _ _).symm
    have h2 : (List.map (fun f : List (ℚ × ℚ) => List.map Prod.snd f) folds).flatten
        = folds.flatten.map Prod.snd := (List.map_flatten _ _).symm
    rw [h1, h2, mape_fold]
    simp only [mape_fold]
    have key : ∀ f : List (ℚ × ℚ),
        (f.length : ℚ) * ((f.map fun fa => |fa.1 - fa.2| / |fa.2|).sum / (f.length : ℚ))
          = (f.map fun fa => |fa.1 - fa.2| / |fa.2|).sum := by
      intro f
      rcases eq_or_ne f [] with h | h
      · subst h; simp
      · exact mul_div_cancel₀ _ (by exact_mod_cast List.length_pos.mpr h |>.ne')
    simp only [key]
    congr 1
    · rw [List.map_flatten, List.sum_flatten, List.map_map]
      rfl
    · rw [List.length_flatten, sum_cast_len]

/-! ## C6: walk-forward no-leakage -/

/-- C6: in every split produced by the walk-forward cross-validation of
`test_train_var_model`, every date used to fit the model strictly
precedes every date used to score it, and the test blocks of successive
splits are chronological and non-overlapping.  `dates` is the strictly
increasing quarterly index of the feature table, so positions order the
same way as dates.  The hypothesis is sklearn's own validity
requirement (`n_splits + 1` folds must fit in the sample). -/
theorem C6_walk_forward_no_leakage (nSamples nSplits : ℕ)
    (hvalid : nSplits + 1 ≤ nSamples) (dates : ℕ → ℤ) (hmono : StrictMono dates) :
    (∀ sp ∈ timeSeriesSplit nSamples nSplits,
        ∀ t ∈ sp.1, ∀ u ∈ sp.2, dates t < dates u) ∧
    (∀ i j, i < j → j < nSplits →
        ∀ u ∈ ((timeSeriesSplit nSamples nSplits).getD i ([], [])).2,
        ∀ v ∈ ((timeSeriesSplit nSamples nSplits).getD j ([], [])).2,
          dates u < dates v) := by
  constructor
  · intro sp hsp t ht u hu
    simp only [timeSeriesSplit, List.mem_map, List.mem_range] at hsp
    obtain ⟨i, hi, rfl⟩ := hsp
    simp only [List.mem_range] at ht
    simp only [List.mem_map, List.mem_range] at hu
    obtain ⟨k, hk, rfl⟩ := hu
    exact hmono (by omega)
  · intro i j hij hj u hu v hv
    have hgd : ∀ m, m < nSplits →
        ((timeSeriesSplit nSamples nSplits).getD m ([], [])) =
          (List.range (nSamples - nSplits * (nSamples / (nSplits + 1)) +
              m * (nSamples / (nSplits + 1))),
            (List.range (nSamples / (nSplits + 1))).map
              ((nSamples - nSplits * (nSamples / (nSplits + 1)) +
                m * (nSamples / (nSplits + 1))) + ·)) := by
      intro m hm
      unfold timeSeriesSplit
      simp only
      rw [List.getD_eq_getElem?_getD, List.getElem?_map, List.getElem?_range hm]
      rfl
    rw [hgd i (lt_trans hij hj)] at hu
    rw [hgd j hj] at hv
    simp only [List.mem_map, List.mem_range] at hu hv
    obtain ⟨k, hk, rfl⟩ := hu
    obtain ⟨k2, hk2, rfl⟩ := hv
    apply hmono
    have : i * (nSamples / (nSplits + 1)) + (nSamples / (nSplits + 1)) ≤
        j * (nSamples / (nSplits + 1)) := by
      have : i + 1 ≤ j := hij
      calc i * (nSamples / (nSplits + 1)) + (nSamples / (nSplits + 1))
          = (i + 1) * (nSamples / (nSplits + 1)) := by ring
        _ ≤ j * (nSamples / (nSplits + 1)) := Nat.mul_le_mul_right _ hij
    omega

/-- C6 witness: the theorem instantiated at 8 quarterly samples, 3
splits and the identity date index. -/
theorem C6_walk_forward_no_leakage_witness :
    3 + 1 ≤ 8 ∧
    ((∀ sp ∈ timeSeriesSplit 8 3,
        ∀ t ∈ sp.1, ∀ u ∈ sp.2, ((t : ℤ)) < ((u : ℤ))) ∧
    (∀ i j, i < j → j < 3 →
        ∀ u ∈ ((timeSeriesSplit 8 3).getD i ([], [])).2,
        ∀ v ∈ ((timeSeriesSplit 8 3).getD j ([], [])).2,
          ((u : ℤ)) < ((v : ℤ)))) :=
  ⟨by decide,
   C6_walk_forward_no_leakage 8 3 (by decide) (fun n => (n : ℤ))
     (fun a b hab => by simpa using Int.ofNat_lt.mpr hab)⟩

/-! ## C9: the differencing-count invariants of the guide builder -/

/-- The differencing loop never exits below one pass, and never below
the count it entered with. -/
theorem stationaryLoop_lower (test : List ℚ → Option Bool) (isBase : Bool) (p : ℕ) :
    ∀ fuel f n m ft, stationaryLoop test isBase p fuel f n = some (m, ft) →
      n ≤ m ∧ 1 ≤ m := by
  intro fuel
  induction fuel with
  | zero => intro f n m ft h; simp [stationaryLoop] at h
  | succ fuel ih =>
    intro f n m ft h
    unfold stationaryLoop at h
    split at h
    · exact absurd h (by simp)
    · rename_i stat htest
      split at h
      · split at h
        · rename_i hcond hbreak
          have hm : n = m := congrArg Prod.fst (Option.some.inj h)
          have h1 : n = 1 ∧ isBase = true := by simpa using hbreak
          omega
        · have := ih _ _ _ _ h
          omega
      · rename_i hcond
        have hm : n = m := congrArg Prod.fst (Option.some.inj h)
        push_neg at hcond
        omega

/-- For a tax-base column the loop never exceeds one differencing
pass (entered at a count of at most one). -/
theorem stationaryLoop_base_upper (test : List ℚ → Option Bool) (p : ℕ) :
    ∀ fuel f n m ft, n ≤ 1 → stationaryLoop test true p fuel f n = some (m, ft) →
      m ≤ 1 := by
  intro fuel
  induction fuel with
  | zero => intro f n m ft _ h; simp [stationaryLoop] at h
  | succ fuel ih =>
    intro f n m ft hn h
    unfold stationaryLoop at h
    split at h
    · exact absurd h (by simp)
    · rename_i stat htest
      split at h
      · split at h
        · rename_i hcond hbreak
          have hm : n = m := congrArg Prod.fst (Option.some.inj h)
          have h1 : n = 1 := by simpa using hbreak
          omega
        · rename_i hcond hbreak
          have hne : n ≠ 1 := by
            intro hE
            subst hE
            simp at hbreak
          exact ih _ _ _ _ (by omega) h
      · rename_i hcond
        have hm : n = m := congrArg Prod.fst (Option.some.inj h)
        omega

/-- C9: every guide entry produced by `get_stationary_guide` has
`ndiffs ≥ 1`, and at most `1` for any column whose name contains
"Base". -/
theorem guideEntryTail_some (test : List ℚ → Option Bool) (isBase : Bool)
    (pp : ℕ) (r : Option (ℕ × List ℚ)) (nd pd : ℕ)
    (h : guideEntryTail test isBase pp r = some (nd, pd)) :
    ∃ ft, r = some (nd, ft) := by
  cases r with
  | none => simp [guideEntryTail] at h
  | some pr =>
    obtain ⟨n0, ft⟩ := pr
    refine ⟨ft, ?_⟩
    simp only [guideEntryTail] at h
    split at h
    · split at h
      · exact absurd h (by simp)
      · have hn : n0 = nd := by
          have := congrArg Prod.fst (Option.some.inj h)
          simpa using this
        rw [hn]
    · have hn : n0 = nd := by
        have := congrArg Prod.fst (Option.some.inj h)
        simpa using this
      rw [hn]

theorem C9_stationary_guide_ndiffs_bounds (test : List ℚ → Option Bool)
    (col : String) (scaled : List ℚ) (fuel nd pd : ℕ)
    (h : get_stationary_guide_entry test col scaled fuel = some (nd, pd)) :
    1 ≤ nd ∧ (containsSub col "Base" = true → nd ≤ 1) := by
  simp only [get_stationary_guide_entry] at h
  obtain ⟨ft, hloop⟩ := guideEntryTail_some _ _ _ _ _ _ h
  have hlow := stationaryLoop_lower _ _ _ _ _ _ _ _ hloop
  refine ⟨hlow.2, fun hbase => ?_⟩
  rw [hbase] at hloop
  exact stationaryLoop_base_upper test _ fuel scaled 0 nd ft (by omega) hloop

/-- C9 witness: a concrete run on a "Base" column whose produced entry
has exactly one differencing pass. -/
theorem C9_stationary_guide_ndiffs_bounds_witness :
    get_stationary_guide_entry (fun _ => some true) "WageBase" [1, 2] 5 = some (1, 1) ∧
    (1 ≤ 1 ∧ (containsSub "WageBase" "Base" = true → 1 ≤ 1)) :=
  ⟨by decide,
   C9_stationary_guide_ndiffs_bounds (fun _ => some true) "WageBase" [1, 2] 5 1 1
     (by decide)⟩

/-! ## C4: grid-search enumeration, scoring and ranking -/

/-- C4: with every candidate evaluation succeeding, the grid search
evaluates exactly the full Cartesian product of the value lists (the
result is the stable sort of the in-enumeration-order scored product),
its length is the product of the list lengths, each result carries the
primary-target MAPE, the results are sorted ascending by that score,
and ties keep candidate creation order.  The first conjunct exhibits
the output as a function of the inputs alone, which is the determinism
guarantee (two runs on identical inputs and seed coincide). -/
theorem C4_grid_search_product_and_ranking {α : Type}
    (score : List (String × α) → String → ℚ)
    (grid_params : List (String × List α)) (main_endog : String)
    (hreq : required_params.all
      (fun c => (grid_params.map fun p => p.1).contains c) = true)
    (hopt : (grid_params.map fun p => p.1).all
      (fun c => (required_params ++ optional_params).contains c) = true) :
    grid_search_var_model (fun kws => Except.ok (score kws)) grid_params main_endog =
      Except.ok (sortByKey (fun f => f.target_mape)
        ((productLists (grid_params.map fun p => p.2)).map
          (scoredCandidate grid_params score main_endog))) ∧
    (∀ results, grid_search_var_model (fun kws => Except.ok (score kws))
        grid_params main_endog = Except.ok results →
      results.length = ((grid_params.map fun p => p.2).map List.length).prod ∧
      List.Perm (results.map fun f => f.kws)
        ((productLists (grid_params.map fun p => p.2)).map fun ps =>
          (grid_params.map fun p => p.1).zip ps) ∧
      (∀ f ∈ results, f.target_mape = f.mape main_endog) ∧
      List.Pairwise (fun a b => a.target_mape ≤ b.target_mape) results ∧
      (∀ q : ℚ, results.filter (fun f => decide (f.target_mape = q)) =
        ((productLists (grid_params.map fun p => p.2)).map
          (scoredCandidate grid_params score main_endog)).filter
            (fun f => decide (f.target_mape = q)))) := by
  have hmain : grid_search_var_model (fun kws => Except.ok (score kws))
      grid_params main_endog =
      Except.ok (sortByKey (fun f => f.target_mape)
        ((productLists (grid_params.map fun p => p.2)).map
          (scoredCandidate grid_params score main_endog))) := by
    simp only [grid_search_var_model]
    rw [if_neg (not_not_intro hreq), if_neg (not_not_intro hopt)]
    have hcand : ∀ ps ∈ productLists (grid_params.map fun p => p.2),
        gridCandidateEval (fun kws => Except.ok (score kws))
          (grid_params.map fun p => p.1) main_endog ps =
        Except.ok (scoredCandidate grid_params score main_endog ps) := fun ps _ => rfl
    rw [mapM_ok _ _ _ hcand]
  refine ⟨hmain, fun results hres => ?_⟩
  have hr : results = sortByKey (fun f => f.target_mape)
      ((productLists (grid_params.map fun p => p.2)).map
        (scoredCandidate grid_params score main_endog)) :=
    Except.ok.inj (hres.symm.trans hmain)
  subst hr
  refine ⟨?_, ?_, ?_, sortByKey_sorted _ _, fun q => sortByKey_filter _ q _⟩
  · rw [(sortByKey_perm _ _).length_eq, List.length_map, productLists_length]
  · have hp := (sortByKey_perm (fun f : FitResultE α => f.target_mape)
        ((productLists (grid_params.map fun p => p.2)).map
          (scoredCandidate grid_params score main_endog))).map
        (fun f : FitResultE α => f.kws)
    refine hp.trans ?_
    rw [List.map_map]
    exact List.Perm.refl _
  · intro f hf
    have hmem := (sortByKey_perm (fun f : FitResultE α => f.target_mape) _).mem_iff.mp hf
    obtain ⟨ps, _, rfl⟩ := List.mem_map.mp hmem
    rfl

/-- C4 witness: the theorem at the concrete 2 × 1 × 3 × 1 grid
(6 candidates) and a concrete scoring function. -/
theorem C4_grid_search_product_and_ranking_witness :
    required_params.all
      (fun c => (gridExample.map fun p => p.1).contains c) = true ∧
    (gridExample.map fun p => p.1).all
      (fun c => (required_params ++ optional_params).contains c) = true ∧
    (grid_search_var_model (fun kws => Except.ok (scoreExample kws)) gridExample "T" =
      Except.ok (sortByKey (fun f => f.target_mape)
        ((productLists (gridExample.map fun p => p.2)).map
          (scoredCandidate gridExample scoreExample "T"))) ∧
    (∀ results, grid_search_var_model (fun kws => Except.ok (scoreExample kws))
        gridExample "T" = Except.ok results →
      results.length = ((gridExample.map fun p => p.2).map List.length).prod ∧
      List.Perm (results.map fun f => f.kws)
        ((productLists (gridExample.map fun p => p.2)).map fun ps =>
          (gridExample.map fun p => p.1).zip ps) ∧
      (∀ f ∈ results, f.target_mape = f.mape "T") ∧
      List.Pairwise (fun a b => a.target_mape ≤ b.target_mape) results ∧
      (∀ q : ℚ, results.filter (fun f => decide (f.target_mape = q)) =
        ((productLists (gridExample.map fun p => p.2)).map
          (scoredCandidate gridExample scoreExample "T")).filter
            (fun f => decide (f.target_mape = q))))) :=
  ⟨by decide, by decide,
   C4_grid_search_product_and_ranking scoreExample gridExample "T"
     (by decide) (by decide)⟩

/-! ## C5: grid-search error policy -/

/-- A single grid cell evaluates to a result iff `test_train_var_model`
itself did not raise on it. -/
theorem gridCandidateEval_isOk {α : Type}
    (evalTT : List (String × α) → Except String (String → ℚ))
    (param_names : List String) (main_endog : String) (ps : List α) :
    (∃ b, gridCandidateEval evalTT param_names main_endog ps = Except.ok b) ↔
      ∃ m, evalTT (param_names.zip ps) = Except.ok m := by
  unfold gridCandidateEval
  cases h : evalTT (param_names.zip ps) with
  | error e => simp
  | ok m => simp

/-- C5 (amended): a missing required key or an unknown key aborts the
whole search immediately with a `ValueError`; otherwise the search
returns a ranked list iff *every* grid candidate evaluates without
raising — an exception raised by any single candidate propagates out of
`mp.Pool.map` and aborts the whole search (there is no per-candidate
catch and no `NoViableModelError` anywhere in the engine). -/
theorem C5_amended_error_policy {α : Type}
    (evalTT : List (String × α) → Except String (String → ℚ))
    (grid_params : List (String × List α)) (main_endog : String) :
    (¬required_params.all
        (fun c => (grid_params.map fun p => p.1).contains c) = true →
      grid_search_var_model evalTT grid_params main_endog =
        Except.error "Missing required parameters") ∧
    (required_params.all
        (fun c => (grid_params.map fun p => p.1).contains c) = true →
      ¬(grid_params.map fun p => p.1).all
          (fun c => (required_params ++ optional_params).contains c) = true →
      grid_search_var_model evalTT grid_params main_endog =
        Except.error "Extra grid parameters provided") ∧
    (required_params.all
        (fun c => (grid_params.map fun p => p.1).contains c) = true →
      (grid_params.map fun p => p.1).all
          (fun c => (required_params ++ optional_params).contains c) = true →
      ((∃ results, grid_search_var_model evalTT grid_params main_endog =
          Except.ok results) ↔
        ∀ ps ∈ productLists (grid_params.map fun p => p.2),
          ∃ m, evalTT ((grid_params.map fun p => p.1).zip ps) = Except.ok m)) := by
  refine ⟨fun hreq => ?_, fun hreq hopt => ?_, fun hreq hopt => ?_⟩
  · simp only [grid_search_var_model]
    rw [if_pos hreq]
  · simp only [grid_search_var_model]
    rw [if_neg (not_not_intro hreq), if_pos hopt]
  · simp only [grid_search_var_model]
    rw [if_neg (not_not_intro hreq), if_neg (not_not_intro hopt)]
    have hmatch : (∃ results,
        (match (productLists (grid_params.map fun p => p.2)).mapM
            (gridCandidateEval evalTT (grid_params.map fun p => p.1) main_endog) with
          | Except.error e => Except.error e
          | Except.ok fits =>
            Except.ok (sortByKey (fun f => f.target_mape) fits)) = Except.ok results) ↔
        ∃ fits, (productLists (grid_params.map fun p => p.2)).mapM
            (gridCandidateEval evalTT (grid_params.map fun p => p.1) main_endog) =
          Except.ok fits := by
      cases hm : (productLists (grid_params.map fun p => p.2)).mapM
          (gridCandidateEval evalTT (grid_params.map fun p => p.1) main_endog) with
      | error e => simp
      | ok fits => simp
    rw [hmatch, mapM_isOk]
    constructor
    · intro hall ps hps
      exact (gridCandidateEval_isOk evalTT _ main_endog ps).mp (hall ps hps)
    · intro hall ps hps
      exact (gridCandidateEval_isOk evalTT _ main_endog ps).mpr (hall ps hps)

/-- C5 witness: the error-policy theorem applied to the mixed grid, in
which the `order = 1` candidate raises, so the search yields no ranked
list. -/
theorem C5_amended_error_policy_witness :
    required_params.all
      (fun c => (gridMixedExample.map fun p => p.1).contains c) = true ∧
    (gridMixedExample.map fun p => p.1).all
      (fun c => (required_params ++ optional_params).contains c) = true ∧
    ((∃ results, grid_search_var_model evalFailExample gridMixedExample "T" =
        Except.ok results) ↔
      ∀ ps ∈ productLists (gridMixedExample.map fun p => p.2),
        ∃ m, evalFailExample ((gridMixedExample.map fun p => p.1).zip ps) =
          Except.ok m) :=
  ⟨by decide, by decide,
   (C5_amended_error_policy evalFailExample gridMixedExample "T").2.2
     (by decide) (by decide)⟩

/-- C5 counterexample: on `gridMixedExample`, where exactly one of the
two candidates raises an ill-conditioned-fit error, the engine does not
log-and-skip that candidate and continue — the whole search aborts with
the candidate's own error — even though the surviving candidate alone
(`gridGoodExample`) evaluates fine, and no `NoViableModelError` is ever
produced. -/
theorem C5_counterexample_failure_not_skipped :
    grid_search_var_model evalFailExample gridMixedExample "T" =
      Except.error "ill-conditioned fit" ∧
    (grid_search_var_model evalFailExample gridGoodExample "T").isOk = true :=
  ⟨rfl, rfl⟩

/-! ## String-munging lemmas for the label conventions -/

theorem splitChar_nil (c : Char) : splitChar c [] = [[]] := rfl

theorem splitChar_cons (c a : Char) (rest : List Char) :
    splitChar c (a :: rest) =
      if a = c then [] :: splitChar c rest
      else (a :: (splitChar c rest).headD []) :: (splitChar c rest).tail := rfl

theorem splitChar_ne_nil (c : Char) : ∀ l : List Char, splitChar c l ≠ [] := by
  intro l
  cases l with
  | nil => simp [splitChar_nil]
  | cons a rest =>
    rw [splitChar_cons]
    by_cases h : a = c <;> simp [h]

theorem splitChar_append_not_mem (c : Char) :
    ∀ l r : List Char, c ∉ l →
      splitChar c (l ++ r) = (l ++ (splitChar c r).headD []) :: (splitChar c r).tail := by
  intro l
  induction l with
  | nil =>
    intro r _
    simp only [List.nil_append]
    cases hs : splitChar c r with
    | nil => exact absurd hs (splitChar_ne_nil c r)
    | cons s rest => simp
  | cons a l ih =>
    intro r hc
    have ha : a ≠ c := fun hE => hc (hE ▸ List.mem_cons_self a l)
    have hcl : c ∉ l := fun hE => hc (List.mem_cons_of_mem a hE)
    rw [List.cons_append, splitChar_cons, if_neg ha, ih r hcl]
    simp

theorem splitChar_not_mem (c : Char) (l : List Char) (h : c ∉ l) :
    splitChar c l = [l] := by
  have := splitChar_append_not_mem c l [] h
  simpa [splitChar_nil] using this

theorem lastDotSegment_no_dot (s : String) (h : '.' ∉ s.data) :
    lastDotSegment s = s := by
  unfold lastDotSegment
  rw [splitChar_not_mem _ _ h]
  rfl

theorem data_append_ux (v : String) : (v ++ "_x").data = v.data ++ ['_', 'x'] := by
  rw [String.data_append]

theorem data_append_uy (v : String) : (v ++ "_y").data = v.data ++ ['_', 'y'] := by
  rw [String.data_append]

/-- The label `v ++ "_x"` of a dot-free variable name is unchanged by
`lastDotSegment`. -/
theorem lastDotSegment_label_x (v : String) (h : '.' ∉ v.data) :
    lastDotSegment (v ++ "_x") = v ++ "_x" := by
  apply lastDotSegment_no_dot
  rw [data_append_ux]
  intro hdot
  rcases List.mem_append.mp hdot with hin | hin
  · exact h hin
  · simp at hin

/-- The label `v ++ "_y"` of a dot-free variable name is unchanged by
`lastDotSegment`. -/
theorem lastDotSegment_label_y (v : String) (h : '.' ∉ v.data) :
    lastDotSegment (v ++ "_y") = v ++ "_y" := by
  apply lastDotSegment_no_dot
  rw [data_append_uy]
  intro hdot
  rcases List.mem_append.mp hdot with hin | hin
  · exact h hin
  · simp at hin

theorem headUnderscoreSegment_x (v : String) (h : '_' ∉ v.data) :
    headUnderscoreSegment (v ++ "_x") = v := by
  unfold headUnderscoreSegment
  rw [data_append_ux, splitChar_append_not_mem _ _ _ h]
  simp only [show splitChar '_' ['_', 'x'] = [[], ['x']] from rfl]
  simp

theorem replaceList_cons (pat repl : List Char) (fuel : ℕ) (a : Char)
    (rest : List Char) :
    replaceList pat repl (fuel + 1) (a :: rest) =
      if pat.isPrefixOf (a :: rest) ∧ pat ≠ [] then
        repl ++ replaceList pat repl fuel ((a :: rest).drop pat.length)
      else a :: replaceList pat repl fuel rest := rfl

theorem replaceList_append_not_head (h : Char) (pt repl : List Char) :
    ∀ (l : List Char) (fuel : ℕ) (r : List Char), h ∉ l →
      replaceList (h :: pt) repl (l.length + fuel) (l ++ r) =
        l ++ replaceList (h :: pt) repl fuel r := by
  intro l
  induction l with
  | nil => intro fuel r _; simp
  | cons a l ih =>
    intro fuel r hc
    have ha : h ≠ a := fun hE => hc (hE ▸ List.mem_cons_self a l)
    have hcl : h ∉ l := fun hE => hc (List.mem_cons_of_mem a hE)
    rw [show (a :: l).length + fuel = (l.length + fuel) + 1 from by
      simp [List.length_cons]; omega]
    rw [List.cons_append, replaceList_cons, if_neg]
    · rw [ih fuel r hcl]
      simp
    · intro hand
      have h1 := hand.1
      simp only [List.isPrefixOf, Bool.and_eq_true, beq_iff_eq] at h1
      exact ha h1.1

theorem strReplace_y_to_x (v : String) (h : '_' ∉ v.data) :
    strReplace (v ++ "_y") "_y" "_x" = v ++ "_x" := by
  unfold strReplace
  rw [show ("_y" : String).data = ['_', 'y'] from rfl,
    show ("_x" : String).data = ['_', 'x'] from rfl, data_append_uy]
  rw [show (v.data ++ ['_', 'y']).length = v.data.length + 2 from by simp]
  rw [replaceList_append_not_head _ _ _ _ 2 _ h]
  rfl

theorem strReplace_x_to_y (v : String) (h : '_' ∉ v.data) :
    strReplace (v ++ "_x") "_x" "_y" = v ++ "_y" := by
  unfold strReplace
  rw [show ("_x" : String).data = ['_', 'x'] from rfl,
    show ("_y" : String).data = ['_', 'y'] from rfl, data_append_ux]
  rw [show (v.data ++ ['_', 'x']).length = v.data.length + 2 from by simp]
  rw [replaceList_append_not_head _ _ _ _ 2 _ h]
  rfl

theorem strDropRight_y (v : String) : strDropRight (v ++ "_y") 2 = v := by
  unfold strDropRight
  rw [data_append_uy]
  simp only [List.length_append, List.length_cons, List.length_nil]
  rw [show v.data.length + (0 + 1 + 1) - 2 = v.data.length from by omega, List.take_left]

/-! ## Membership description of the exogenous-variable selector -/

/-- First label match in a list: the found index points at the sought
value. -/
theorem findIdx_getD_of_mem {l : List String} {v : String} (hv : v ∈ l) :
    ∃ i, l.findIdx? (· == v) = some i ∧ l.getD i "" = v := by
  have hlt : l.findIdx (· == v) < l.length :=
    List.findIdx_lt_length.mpr ⟨v, hv, by simp⟩
  refine ⟨l.findIdx (· == v),
    List.findIdx?_eq_some_iff_findIdx_eq.mpr ⟨hlt, rfl⟩, ?_⟩
  have hp := @List.findIdx_getElem _ (· == v) l hlt
  rw [List.getD_eq_getElem?_getD, List.getElem?_eq_getElem hlt]
  simpa using hp

/-- Appending a common suffix does not change which labels match. -/
theorem findIdx_append_suffix (l : List String) (v sfx : String) :
    (l.map fun a => a ++ sfx).findIdx? (· == v ++ sfx) = l.findIdx? (· == v) := by
  rw [List.findIdx?_map]
  have : ((fun a => a == v ++ sfx) ∘ fun a => a ++ sfx) = fun a => a == v := by
    funext a
    by_cases h : a = v
    · simp [h]
    · have : ¬(a ++ sfx = v ++ sfx) := by
        intro hE
        apply h
        have := congrArg String.data hE
        rw [String.data_append, String.data_append] at this
        exact String.ext (List.append_cancel_right this)
      simp [h, this]
  rw [this]


theorem getD_map_suffix (vars : List String) (sfx : String) (i : ℕ)
    (hi : i < vars.length) :
    (vars.map fun a => a ++ sfx).getD i "" = vars.getD i "" ++ sfx := by
  rw [List.getD_eq_getElem?_getD, List.getD_eq_getElem?_getD, List.getElem?_map,
    List.getElem?_eq_getElem hi]
  rfl

theorem getD_mem (l : List String) (i : ℕ) (hi : i < l.length) : l.getD i "" ∈ l := by
  rw [List.getD_eq_getElem?_getD, List.getElem?_eq_getElem hi]
  exact List.getElem_mem hi

theorem nodup_findIdx_getD (vars : List String) (hnd : vars.Nodup) (i : ℕ)
    (hi : i < vars.length) : vars.findIdx (· == vars.getD i "") = i := by
  have hmem : vars.getD i "" ∈ vars := getD_mem vars i hi
  have hlt : vars.findIdx (· == vars.getD i "") < vars.length :=
    List.findIdx_lt_length.mpr ⟨vars.getD i "", hmem, by simp⟩
  have hp := @List.findIdx_getElem _ (· == vars.getD i "") vars hlt
  have heq : vars[vars.findIdx (· == vars.getD i "")] = vars[i] := by
    have hgd : vars.getD i "" = vars[i] := by
      rw [List.getD_eq_getElem?_getD, List.getElem?_eq_getElem hi]
      rfl
    rw [← hgd]
    simpa using hp
  exact (hnd.getElem_inj_iff).mp heq

/-- The full membership description of `exogRun` (the selector body for
one endogenous target) over a matrix with the builder's label
conventions: a variable `D` is selected iff its forward p-value against
`T` is below `alpha`, its name is on the allow-list, and its reverse
p-value is at least the literal `0.05`. -/
theorem exogRun_mem (vars : List String) (cell : ℕ → ℕ → ℚ) (T : String)
    (cbo : List String) (alpha : ℚ) (hnd : vars.Nodup)
    (hclean : ∀ v ∈ vars, '.' ∉ v.data ∧ '_' ∉ v.data)
    (hT : T ∈ vars)
    (hfc : get_features_col (vars.map fun a => a ++ "_y") T "contains" =
      Except.ok (T ++ "_y")) :
    ∃ res, exogRun ⟨vars.map (fun a => a ++ "_x"), vars.map (fun a => a ++ "_y"), cell⟩
        T cbo alpha = Except.ok res ∧
      ∀ D : String, D ∈ res ↔
        D ∈ vars ∧ cell (vars.findIdx (· == D)) (vars.findIdx (· == T)) < alpha ∧
        cbo.contains D = true ∧
        5 / 100 ≤ cell (vars.findIdx (· == T)) (vars.findIdx (· == D)) := by
  have hjlt : vars.findIdx (· == T) < vars.length :=
    List.findIdx_lt_length.mpr ⟨T, hT, by simp⟩
  have hjF : vars.findIdx? (· == T) = some (vars.findIdx (· == T)) :=
    List.findIdx?_eq_some_iff_findIdx_eq.mpr ⟨hjlt, rfl⟩
  have hjG : vars.getD (vars.findIdx (· == T)) "" = T := by
    have hp := @List.findIdx_getElem _ (· == T) vars hjlt
    rw [List.getD_eq_getElem?_getD, List.getElem?_eq_getElem hjlt]
    simpa using hp
  -- the per-stage lists
  set jT := vars.findIdx (· == T) with hjTdef
  set M : PMat :=
    ⟨vars.map (fun a => a ++ "_x"), vars.map (fun a => a ++ "_y"), cell⟩ with hM
  set fwd : List (String × ℚ) := (List.range (vars.length)).map
    (fun i => ((vars.map fun a => a ++ "_x").getD i "", cell i jT)) with hfwd
  set f2 : List (String × ℚ) :=
    ((sortByKey (fun p => p.2) fwd).filter fun p => p.2 < alpha).filter
      (fun p => cbo.contains (headUnderscoreSegment (lastDotSegment p.1))) with hf2
  set g : (String × ℚ) → (String × ℚ) := fun p => (strReplace p.1 "_x" "_y",
    (M.loc (strReplace (T ++ "_y") "_y" "_x") (strReplace p.1 "_x" "_y")).getD 0)
    with hg
  -- facts about members of fwd
  have hfwd_mem : ∀ pr : String × ℚ, pr ∈ fwd ↔
      ∃ i, i < vars.length ∧ pr = (vars.getD i "" ++ "_x", cell i jT) := by
    intro pr
    rw [hfwd]
    simp only [List.mem_map, List.mem_range]
    constructor
    · rintro ⟨i, hi, rfl⟩
      exact ⟨i, hi, by rw [getD_map_suffix vars _ i hi]⟩
    · rintro ⟨i, hi, rfl⟩
      exact ⟨i, hi, by rw [getD_map_suffix vars _ i hi]⟩
  -- the reverse lookup succeeds on every member of f2
  have hloc : ∀ i, i < vars.length →
      M.loc (T ++ "_x") (vars.getD i "" ++ "_y") = some (cell jT i) := by
    intro i hi
    unfold PMat.loc
    rw [hM]
    simp only
    rw [findIdx_append_suffix, findIdx_append_suffix, hjF]
    have hfi : vars.findIdx (· == vars.getD i "") = i :=
      nodup_findIdx_getD vars hnd i hi
    have hsome : vars.findIdx? (· == vars.getD i "") = some i := by
      rw [List.findIdx?_eq_some_iff_findIdx_eq, hfi]
      exact ⟨hi, rfl⟩
    rw [hsome]
    rfl
  have hTrep : strReplace (T ++ "_y") "_y" "_x" = T ++ "_x" :=
    strReplace_y_to_x T (hclean T hT).2
  have hf2mem : ∀ pr ∈ f2, ∃ i, i < vars.length ∧
      pr = (vars.getD i "" ++ "_x", cell i jT) := by
    intro pr hpr
    rw [hf2] at hpr
    have h1 := (List.mem_filter.mp hpr).1
    have h2 := (List.mem_filter.mp h1).1
    exact (hfwd_mem pr).mp ((sortByKey_perm _ _).mem_iff.mp h2)
  have hmapM : f2.mapM (fun p =>
      match M.loc (strReplace (T ++ "_y") "_y" "_x") (strReplace p.1 "_x" "_y") with
      | none => (Except.error "KeyError" : Except String (String × ℚ))
      | some q => Except.ok (strReplace p.1 "_x" "_y", q)) = Except.ok (f2.map g) := by
    apply mapM_ok
    intro pr hpr
    obtain ⟨i, hi, rfl⟩ := hf2mem pr hpr
    have hcl := hclean _ (getD_mem vars i hi)
    rw [hTrep, strReplace_x_to_y _ hcl.2, hloc i hi]
    rw [hg]
    simp only
    rw [strReplace_x_to_y _ hcl.2, hTrep, hloc i hi]
    rfl
  -- run the selector
  refine ⟨((sortByKey (fun p => p.2) (f2.map g)).filter
      fun p => 5 / 100 ≤ p.2).map
        (fun p => strDropRight (lastDotSegment p.1) 2), ?_, ?_⟩
  · simp only [exogRun, hfc]
    rw [show ((vars.map fun a => a ++ "_y").findIdx? (· == T ++ "_y")).getD 0 = jT from by
      rw [findIdx_append_suffix, hjF]; rfl]
    rw [show (vars.map fun a => a ++ "_x").length = vars.length from by simp]
    rw [hmapM]
    simp only [ge_iff_le, List.map_map]
    rfl
  · -- the membership characterization
    intro D
    have hstrip : ∀ i, i < vars.length →
        strDropRight (lastDotSegment (vars.getD i "" ++ "_y")) 2 = vars.getD i "" := by
      intro i hi
      rw [lastDotSegment_label_y _ (hclean _ (getD_mem vars i hi)).1, strDropRight_y]
    constructor
    · intro hD
      obtain ⟨p, hpL, hφ⟩ := List.mem_map.mp hD
      have hpL2 := List.mem_filter.mp hpL
      have hpmapg := (sortByKey_perm (fun p : String × ℚ => p.2) (f2.map g)).mem_iff.mp
        hpL2.1
      obtain ⟨pr, hprf2, rfl⟩ := List.mem_map.mp hpmapg
      obtain ⟨i, hi, rfl⟩ := hf2mem pr hprf2
      have hcl := hclean _ (getD_mem vars i hi)
      have hgval : g (vars.getD i "" ++ "_x", cell i jT) =
          (vars.getD i "" ++ "_y", cell jT i) := by
        rw [hg]
        simp only
        rw [strReplace_x_to_y _ hcl.2, hTrep, hloc i hi]
        rfl
      rw [hgval] at hpL2 hφ
      have hq : 5 / 100 ≤ cell jT i := by simpa using hpL2.2
      rw [hstrip i hi] at hφ
      subst hφ
      -- conditions from the two filters on f2
      rw [hf2] at hprf2
      have h1 := List.mem_filter.mp hprf2
      have h2 := List.mem_filter.mp h1.1
      have hcbo : cbo.contains (vars.getD i "") = true := by
        have hc2 := h1.2
        rw [lastDotSegment_label_x _ hcl.1, headUnderscoreSegment_x _ hcl.2] at hc2
        exact hc2
      have hfwdlt : cell i jT < alpha := by simpa using h2.2
      have hidx : vars.findIdx (· == vars.getD i "") = i :=
        nodup_findIdx_getD vars hnd i hi
      exact ⟨getD_mem vars i hi, by rw [hidx]; exact hfwdlt, hcbo,
        by rw [hidx]; exact hq⟩
    · rintro ⟨hDmem, hflt, hcbo, hrev⟩
      have hilt : vars.findIdx (· == D) < vars.length :=
        List.findIdx_lt_length.mpr ⟨D, hDmem, by simp⟩
      have hiG : vars.getD (vars.findIdx (· == D)) "" = D := by
        have hp := @List.findIdx_getElem _ (· == D) vars hilt
        rw [List.getD_eq_getElem?_getD, List.getElem?_eq_getElem hilt]
        simpa using hp
      have hcl : '.' ∉ D.data ∧ '_' ∉ D.data := hclean D hDmem
      have hprf2 : (D ++ "_x", cell (vars.findIdx (· == D)) jT) ∈ f2 := by
        rw [hf2]
        rw [List.mem_filter]
        constructor
        · rw [List.mem_filter]
          constructor
          · rw [(sortByKey_perm _ _).mem_iff, hfwd_mem]
            exact ⟨vars.findIdx (· == D), hilt, by rw [hiG]⟩
          · simpa using hflt
        · rw [lastDotSegment_label_x _ hcl.1, headUnderscoreSegment_x _ hcl.2]
          exact hcbo
      have hgval : g (D ++ "_x", cell (vars.findIdx (· == D)) jT) =
          (D ++ "_y", cell jT (vars.findIdx (· == D))) := by
        rw [hg]
        simp only
        rw [strReplace_x_to_y _ hcl.2, hTrep, ← hiG, hloc _ hilt]
        rw [hiG]
        rfl
      apply List.mem_map.mpr
      refine ⟨(D ++ "_y", cell jT (vars.findIdx (· == D))), ?_, ?_⟩
      · rw [List.mem_filter]
        constructor
        · apply (sortByKey_perm (fun p : String × ℚ => p.2) (f2.map g)).mem_iff.mpr
          apply List.mem_map.mpr
          exact ⟨(D ++ "_x", cell (vars.findIdx (· == D)) jT), hprf2, hgval⟩
        · simpa using hrev
      · simp only
        rw [lastDotSegment_label_y _ hcl.1, strDropRight_y]

theorem mem_foldl_inter (D : String) :
    ∀ (possible : List (List String)) (p0 : List String),
      D ∈ possible.foldl (fun acc p => acc.filter fun c => p.contains c) p0 ↔
        D ∈ p0 ∧ ∀ p ∈ possible, D ∈ p := by
  intro possible
  induction possible with
  | nil => intro p0; simp
  | cons q rest ih =>
    intro p0
    rw [List.foldl_cons, ih]
    rw [List.mem_filter]
    constructor
    · rintro ⟨⟨h0, hq⟩, hrest⟩
      refine ⟨h0, fun p hp => ?_⟩
      rcases List.mem_cons.mp hp with rfl | hp
      · simpa using hq
      · exact hrest p hp
    · rintro ⟨h0, hall⟩
      exact ⟨⟨h0, by simpa using hall q (List.mem_cons_self q rest)⟩,
        fun p hp => hall p (List.mem_cons_of_mem q hp)⟩

/-- `mapM` over `Except` when every element is known to succeed. -/
theorem mapM_ok_toOption {ε γ : Type} (f : α → Except ε γ) (dflt : γ) :
    ∀ l : List α, (∀ a ∈ l, ∃ b, f a = Except.ok b) →
      l.mapM f = Except.ok (l.map fun a => ((f a).toOption).getD dflt) := by
  intro l hall
  apply mapM_ok
  intro a ha
  obtain ⟨b, hb⟩ := hall a ha
  rw [hb]
  rfl

/-- The full membership description of `get_possible_exog_variables`
over a matrix with the builder's label conventions: the per-target
candidate sets are intersected, every returned name is on the
allow-list, and a driver `D` is returned iff, for every endogenous
target `T`, its forward p-value against `T` is below `alpha`, its name
is on the allow-list, and its reverse p-value is at least the literal
`0.05`. -/
theorem gpev_mem (vars : List String) (cell : ℕ → ℕ → ℚ)
    (endog : List String) (cbo : List String) (alpha : ℚ) (hnd : vars.Nodup)
    (hclean : ∀ v ∈ vars, '.' ∉ v.data ∧ '_' ∉ v.data)
    (hend : endog ≠ [])
    (hTs : ∀ T ∈ endog, T ∈ vars ∧
      get_features_col (vars.map fun a => a ++ "_y") T "contains" =
        Except.ok (T ++ "_y")) :
    ∃ res, get_possible_exog_variables
        ⟨vars.map (fun a => a ++ "_x"), vars.map (fun a => a ++ "_y"), cell⟩
        endog cbo alpha = Except.ok res ∧
      ∀ D : String, D ∈ res ↔ ∀ T ∈ endog,
        D ∈ vars ∧ cell (vars.findIdx (· == D)) (vars.findIdx (· == T)) < alpha ∧
        cbo.contains D = true ∧
        5 / 100 ≤ cell (vars.findIdx (· == T)) (vars.findIdx (· == D)) := by
  set M : PMat :=
    ⟨vars.map (fun a => a ++ "_x"), vars.map (fun a => a ++ "_y"), cell⟩ with hM
  have hrunT : ∀ T ∈ endog, ∃ r, exogRun M T cbo alpha = Except.ok r ∧
      ∀ D : String, D ∈ r ↔
        D ∈ vars ∧ cell (vars.findIdx (· == D)) (vars.findIdx (· == T)) < alpha ∧
        cbo.contains D = true ∧
        5 / 100 ≤ cell (vars.findIdx (· == T)) (vars.findIdx (· == D)) := by
    intro T hTe
    exact exogRun_mem vars cell T cbo alpha hnd hclean (hTs T hTe).1 (hTs T hTe).2
  have hmapM : endog.mapM (fun col => exogRun M col cbo alpha) =
      Except.ok (endog.map fun T => ((exogRun M T cbo alpha).toOption).getD []) :=
    mapM_ok_toOption _ [] endog fun T hTe =>
      ⟨_, (hrunT T hTe).choose_spec.1⟩
  -- the per-target membership in terms of the option-extracted lists
  have hresmem : ∀ T ∈ endog, ∀ D : String,
      D ∈ ((exogRun M T cbo alpha).toOption).getD [] ↔
        D ∈ vars ∧ cell (vars.findIdx (· == D)) (vars.findIdx (· == T)) < alpha ∧
        cbo.contains D = true ∧
        5 / 100 ≤ cell (vars.findIdx (· == T)) (vars.findIdx (· == D)) := by
    intro T hTe D
    rw [(hrunT T hTe).choose_spec.1]
    exact (hrunT T hTe).choose_spec.2 D
  cases hend0 : endog with
  | nil => exact absurd hend0 hend
  | cons T0 rest =>
    subst hend0
    have hT0 := hresmem T0 (List.mem_cons_self T0 rest)
    simp only [get_possible_exog_variables, hmapM]
    simp only [List.map_cons]
    -- membership in the intersection
    have hmem : ∀ D : String,
        (D ∈ (((exogRun M T0 cbo alpha).toOption).getD [] ::
            rest.map fun T => ((exogRun M T cbo alpha).toOption).getD []).foldl
          (fun acc p => acc.filter fun c => p.contains c)
          (((exogRun M T0 cbo alpha).toOption).getD [])) ↔
        ∀ T ∈ T0 :: rest, D ∈ ((exogRun M T cbo alpha).toOption).getD [] := by
      intro D
      rw [mem_foldl_inter]
      constructor
      · rintro ⟨h0, hall⟩ T hTe
        rcases List.mem_cons.mp hTe with rfl | hTe
        · exact h0
        · exact hall _ (List.mem_cons_of_mem _ (List.mem_map.mpr ⟨T, hTe, rfl⟩))
      · intro hall
        refine ⟨hall T0 (List.mem_cons_self T0 rest), fun p hp => ?_⟩
        rcases List.mem_cons.mp hp with rfl | hp
        · exact hall T0 (List.mem_cons_self T0 rest)
        · obtain ⟨T, hTe, rfl⟩ := List.mem_map.mp hp
          exact hall T (List.mem_cons_of_mem T0 hTe)
    -- the defensive allow-list check passes
    have hcheck : ((((exogRun M T0 cbo alpha).toOption).getD [] ::
        rest.map fun T => ((exogRun M T cbo alpha).toOption).getD []).foldl
          (fun acc p => acc.filter fun c => p.contains c)
          (((exogRun M T0 cbo alpha).toOption).getD [])).all
        (fun c => cbo.contains c) = true := by
      rw [List.all_eq_true]
      intro D hD
      have := (hmem D).mp hD T0 (List.mem_cons_self T0 rest)
      exact ((hT0 D).mp this).2.2.1
    rw [if_neg (not_not_intro hcheck)]
    refine ⟨_, rfl, fun D => ?_⟩
    rw [hmem D]
    constructor
    · intro hall T hTe
      exact (hresmem T hTe D).mp (hall T hTe)
    · intro hall T hTe
      exact (hresmem T hTe D).mpr (hall T hTe)

/-! ## C2: the Granger-causality matrix -/

/-- C2 (amended): in the matrix returned by
`grangers_causation_matrix`, the cell in the *row* of the driver `D`
(label `D_x`) and the *column* of the target `T` (label `T_y`) holds
the minimum over lags `1..maxlag` of the p-value of the single
configured test statistic (default `ssr_chi2test`), rounded to four
decimals, for "D Granger-causes T". -/
theorem C2_amended_grangers_cell (pv : String → String → ℕ → GTest → ℚ)
    (varList : List String) (test : GTest) (maxlag : ℕ) (T D : String)
    (hT : T ∈ varList) (hD : D ∈ varList) :
    (grangers_causation_matrix pv varList test maxlag).loc (D ++ "_x") (T ++ "_y") =
      some (minList ((List.range maxlag).map fun l =>
        round4 (pv T D (l + 1) test))) := by
  obtain ⟨i, hiF, hiG⟩ := findIdx_getD_of_mem hD
  obtain ⟨j, hjF, hjG⟩ := findIdx_getD_of_mem hT
  unfold grangers_causation_matrix PMat.loc PMat.transpose PMat.withLabels
  simp only [findIdx_append_suffix, hiF, hjF, Option.bind_eq_bind, Option.some_bind]
  unfold gcFillCell
  rw [hiG, hjG]
  rfl

/-- C2 witness: the amended cell description at a concrete oracle,
variable list and maximum lag. -/
theorem C2_amended_grangers_cell_witness :
    "A" ∈ (["A", "B"] : List String) ∧ "B" ∈ (["A", "B"] : List String) ∧
    (grangers_causation_matrix pvEx ["A", "B"] GTest.ssr_chi2test 2).loc
        ("B" ++ "_x") ("A" ++ "_y") =
      some (minList ((List.range 2).map fun l =>
        round4 (pvEx "A" "B" (l + 1) GTest.ssr_chi2test))) :=
  ⟨by decide, by decide,
   C2_amended_grangers_cell pvEx ["A", "B"] GTest.ssr_chi2test 2 "A" "B"
     (by decide) (by decide)⟩

/-- C2 counterexample: at the concrete oracle `pvEx` the produced
matrix holds, in the row labelled `A_x` and column labelled `B_y`,
the rounded single-test (`ssr_chi2test`) p-value 0.4 of "A causes B" —
whereas the claim (cell at row = target A, col = driver B, minimum over
all four test statistics of "B causes A") predicts 0.1. -/
theorem C2_counterexample_orientation_and_single_test :
    (grangers_causation_matrix pvEx ["A", "B"] GTest.ssr_chi2test 1).loc "A_x" "B_y" =
      some (2 / 5) ∧
    specGrangersCellFourTests pvEx "A" "B" 1 = 1 / 10 ∧
    ((2 : ℚ) / 5) ≠ 1 / 10 := by
  refine ⟨?_, ?_, by norm_num⟩
  · have h := C2_amended_grangers_cell pvEx ["A", "B"] GTest.ssr_chi2test 1 "B" "A"
      (by decide) (by decide)
    rw [show ("A" ++ "_x" : String) = "A_x" from rfl,
      show ("B" ++ "_y" : String) = "B_y" from rfl] at h
    rw [h]
    simp +decide only [pvEx, minList]
    norm_num [round4, round_eq]
  · simp +decide [specGrangersCellFourTests, allGTests, pvEx, minList]
    norm_num [min_def]

/-! ## C3 and C10: the exogenous-variable selection rule -/

theorem hTs_TD : ∀ T ∈ (["T"] : List String), T ∈ (["T", "D"] : List String) ∧
    get_features_col ((["T", "D"] : List String).map fun a => a ++ "_y") T
      "contains" = Except.ok (T ++ "_y") := by
  intro T hT
  rw [List.mem_singleton] at hT
  subst hT
  exact ⟨by decide, rfl⟩

/-- C3 (amended): a driver `D` is selected for the targets iff, for
every endogenous target `T`, (i) the forward p-value for D→T is below
`alpha`, (ii) `D` is on the allow-list, and (iii) the reverse p-value
for T→D is at least the *fixed constant* `0.05` (not `alpha`); the
per-target candidate sets are intersected.  The last two conjuncts are
the claim's α = 0.05 scenario, which the code satisfies: with forward
p = 0.01, a reverse p of 0.20 keeps `D` and a reverse p of 0.01 drops
it. -/
theorem C3_amended_exog_selection (vars : List String) (cell : ℕ → ℕ → ℚ)
    (endog cbo : List String) (alpha : ℚ) (hnd : vars.Nodup)
    (hclean : ∀ v ∈ vars, '.' ∉ v.data ∧ '_' ∉ v.data) (hend : endog ≠ [])
    (hTs : ∀ T ∈ endog, T ∈ vars ∧
      get_features_col (vars.map fun a => a ++ "_y") T "contains" =
        Except.ok (T ++ "_y")) :
    (∃ res, get_possible_exog_variables
        ⟨vars.map (fun a => a ++ "_x"), vars.map (fun a => a ++ "_y"), cell⟩
        endog cbo alpha = Except.ok res ∧
      ∀ D : String, D ∈ res ↔ ∀ T ∈ endog,
        D ∈ vars ∧ cell (vars.findIdx (· == D)) (vars.findIdx (· == T)) < alpha ∧
        cbo.contains D = true ∧
        5 / 100 ≤ cell (vars.findIdx (· == T)) (vars.findIdx (· == D))) ∧
    (∃ res1, get_possible_exog_variables
        ⟨["T", "D"].map (fun a => a ++ "_x"), ["T", "D"].map (fun a => a ++ "_y"),
          cellTwoVar (1 / 100) (1 / 5) (9 / 10)⟩
        ["T"] ["D"] (5 / 100) = Except.ok res1 ∧ "D" ∈ res1) ∧
    (∃ res2, get_possible_exog_variables
        ⟨["T", "D"].map (fun a => a ++ "_x"), ["T", "D"].map (fun a => a ++ "_y"),
          cellTwoVar (1 / 100) (1 / 100) (9 / 10)⟩
        ["T"] ["D"] (5 / 100) = Except.ok res2 ∧ "D" ∉ res2) := by
  refine ⟨gpev_mem vars cell endog cbo alpha hnd hclean hend hTs, ?_, ?_⟩
  · obtain ⟨res1, hrun, hiff⟩ := gpev_mem ["T", "D"]
      (cellTwoVar (1 / 100) (1 / 5) (9 / 10)) ["T"] ["D"] (5 / 100)
      (by decide) (by decide) (by decide) hTs_TD
    refine ⟨res1, hrun, (hiff "D").mpr ?_⟩
    intro T hTe
    rw [List.mem_singleton] at hTe
    subst hTe
    refine ⟨by decide, ?_, by decide, ?_⟩
    · rw [show List.findIdx (· == "D") ["T", "D"] = 1 from rfl,
        show List.findIdx (· == "T") ["T", "D"] = 0 from rfl]
      norm_num [cellTwoVar]
    · rw [show List.findIdx (· == "D") ["T", "D"] = 1 from rfl,
        show List.findIdx (· == "T") ["T", "D"] = 0 from rfl]
      norm_num [cellTwoVar]
  · obtain ⟨res2, hrun, hiff⟩ := gpev_mem ["T", "D"]
      (cellTwoVar (1 / 100) (1 / 100) (9 / 10)) ["T"] ["D"] (5 / 100)
      (by decide) (by decide) (by decide) hTs_TD
    refine ⟨res2, hrun, fun hmem => ?_⟩
    have := ((hiff "D").mp hmem) "T" (List.mem_singleton.mpr rfl)
    rw [show List.findIdx (· == "D") ["T", "D"] = 1 from rfl,
      show List.findIdx (· == "T") ["T", "D"] = 0 from rfl] at this
    have hle := this.2.2.2
    norm_num [cellTwoVar] at hle

/-- C3 witness: the amended rule at the concrete two-variable scenario
matrix. -/
theorem C3_amended_exog_selection_witness :
    (["T", "D"] : List String).Nodup ∧
    (∀ v ∈ (["T", "D"] : List String), '.' ∉ v.data ∧ '_' ∉ v.data) ∧
    (["T"] : List String) ≠ [] ∧
    (∀ T ∈ (["T"] : List String), T ∈ (["T", "D"] : List String) ∧
      get_features_col ((["T", "D"] : List String).map fun a => a ++ "_y") T
        "contains" = Except.ok (T ++ "_y")) ∧
    ((∃ res, get_possible_exog_variables
        ⟨(["T", "D"] : List String).map (fun a => a ++ "_x"),
          (["T", "D"] : List String).map (fun a => a ++ "_y"),
          cellTwoVar (1 / 100) (1 / 5) (9 / 10)⟩
        ["T"] ["D"] (1 / 20) = Except.ok res ∧
      ∀ D : String, D ∈ res ↔ ∀ T ∈ (["T"] : List String),
        D ∈ (["T", "D"] : List String) ∧
        cellTwoVar (1 / 100) (1 / 5) (9 / 10)
          ((["T", "D"] : List String).findIdx (· == D))
          ((["T", "D"] : List String).findIdx (· == T)) < 1 / 20 ∧
        (["D"] : List String).contains D = true ∧
        5 / 100 ≤ cellTwoVar (1 / 100) (1 / 5) (9 / 10)
          ((["T", "D"] : List String).findIdx (· == T))
          ((["T", "D"] : List String).findIdx (· == D))) ∧
    (∃ res1, get_possible_exog_variables
        ⟨["T", "D"].map (fun a => a ++ "_x"), ["T", "D"].map (fun a => a ++ "_y"),
          cellTwoVar (1 / 100) (1 / 5) (9 / 10)⟩
        ["T"] ["D"] (5 / 100) = Except.ok res1 ∧ "D" ∈ res1) ∧
    (∃ res2, get_possible_exog_variables
        ⟨["T", "D"].map (fun a => a ++ "_x"), ["T", "D"].map (fun a => a ++ "_y"),
          cellTwoVar (1 / 100) (1 / 100) (9 / 10)⟩
        ["T"] ["D"] (5 / 100) = Except.ok res2 ∧ "D" ∉ res2)) :=
  ⟨by decide, by decide, by decide, hTs_TD,
   C3_amended_exog_selection ["T", "D"] (cellTwoVar (1 / 100) (1 / 5) (9 / 10))
     ["T"] ["D"] (1 / 20) (by decide) (by decide) (by decide) hTs_TD⟩

/-- C3 counterexample: with α = 0.1, forward p = 0.01 and reverse
p = 0.07 the selector *includes* `D` (because the reverse cut is the
literal 0.05), although the claim's rule — reverse non-significance
measured against α in both directions — excludes it. -/
theorem C3_counterexample_reverse_uses_alpha :
    (∃ res, get_possible_exog_variables
        ⟨["T", "D"].map (fun a => a ++ "_x"), ["T", "D"].map (fun a => a ++ "_y"),
          cellTwoVar (1 / 100) (7 / 100) (9 / 10)⟩
        ["T"] ["D"] (1 / 10) = Except.ok res ∧ "D" ∈ res) ∧
    ¬specExogRuleBothAlpha (1 / 100) (7 / 100) true (1 / 10) := by
  constructor
  · obtain ⟨res, hrun, hiff⟩ := gpev_mem ["T", "D"]
      (cellTwoVar (1 / 100) (7 / 100) (9 / 10)) ["T"] ["D"] (1 / 10)
      (by decide) (by decide) (by decide) hTs_TD
    refine ⟨res, hrun, (hiff "D").mpr ?_⟩
    intro T hTe
    rw [List.mem_singleton] at hTe
    subst hTe
    refine ⟨by decide, ?_, by decide, ?_⟩
    · rw [show List.findIdx (· == "D") ["T", "D"] = 1 from rfl,
        show List.findIdx (· == "T") ["T", "D"] = 0 from rfl]
      norm_num [cellTwoVar]
    · rw [show List.findIdx (· == "D") ["T", "D"] = 1 from rfl,
        show List.findIdx (· == "T") ["T", "D"] = 0 from rfl]
      norm_num [cellTwoVar]
  · rintro ⟨_, _, hrev⟩
    norm_num at hrev

/-- C10: the caller's threshold α is applied only to the forward
direction, while the reverse-direction cut is the fixed constant 0.05;
consequently, for every α ≠ 0.05 there is a reverse p-value (here
`(α + 0.05) / 2`, which lies between the two thresholds) at which the
selector's decision differs from applying α to both directions. -/
theorem C10_reverse_cut_fixed_at_005 (alpha : ℚ) (hne : alpha ≠ 1 / 20) :
    ∃ res, get_possible_exog_variables
        ⟨["T", "D"].map (fun a => a ++ "_x"), ["T", "D"].map (fun a => a ++ "_y"),
          cellTwoVar (alpha - 1) ((alpha + 1 / 20) / 2) alpha⟩
        ["T"] ["D"] alpha = Except.ok res ∧
      (("D" ∈ res) ↔ 5 / 100 ≤ (alpha + 1 / 20) / 2) ∧
      ¬(("D" ∈ res) ↔
        specExogRuleBothAlpha (alpha - 1) ((alpha + 1 / 20) / 2) true alpha) := by
  obtain ⟨res, hrun, hiff⟩ := gpev_mem ["T", "D"]
    (cellTwoVar (alpha - 1) ((alpha + 1 / 20) / 2) alpha) ["T"] ["D"] alpha
    (by decide) (by decide) (by decide) hTs_TD
  have hDiff : ("D" ∈ res) ↔ 5 / 100 ≤ (alpha + 1 / 20) / 2 := by
    rw [hiff "D"]
    constructor
    · intro hall
      have := hall "T" (List.mem_singleton.mpr rfl)
      rw [show List.findIdx (· == "D") ["T", "D"] = 1 from rfl,
        show List.findIdx (· == "T") ["T", "D"] = 0 from rfl] at this
      have := this.2.2.2
      simpa [cellTwoVar] using this
    · intro hrev T hTe
      rw [List.mem_singleton] at hTe
      subst hTe
      rw [show List.findIdx (· == "D") ["T", "D"] = 1 from rfl,
        show List.findIdx (· == "T") ["T", "D"] = 0 from rfl]
      refine ⟨by decide, by norm_num [cellTwoVar], by decide, ?_⟩
      simpa [cellTwoVar] using hrev
  refine ⟨res, hrun, hDiff, fun hiff2 => ?_⟩
  have hspec : specExogRuleBothAlpha (alpha - 1) ((alpha + 1 / 20) / 2) true alpha ↔
      alpha ≤ (alpha + 1 / 20) / 2 := by
    unfold specExogRuleBothAlpha
    constructor
    · rintro ⟨_, _, h⟩; exact h
    · intro h; exact ⟨by linarith, rfl, h⟩
  rw [hDiff, hspec] at hiff2
  rcases lt_or_gt_of_ne hne with hlt | hgt
  · have h1 : ¬(5 / 100 ≤ (alpha + 1 / 20) / 2) := by
      intro h; linarith
    have h2 : alpha ≤ (alpha + 1 / 20) / 2 := by linarith
    exact h1 (hiff2.mpr h2)
  · have h1 : 5 / 100 ≤ (alpha + 1 / 20) / 2 := by linarith
    have h2 : ¬(alpha ≤ (alpha + 1 / 20) / 2) := by intro h; linarith
    exact h2 (hiff2.mp h1)

/-- C10 witness: the theorem instantiated at α = 0.1. -/
theorem C10_reverse_cut_fixed_at_005_witness :
    (1 : ℚ) / 10 ≠ 1 / 20 ∧
    (∃ res, get_possible_exog_variables
        ⟨["T", "D"].map (fun a => a ++ "_x"), ["T", "D"].map (fun a => a ++ "_y"),
          cellTwoVar (1 / 10 - 1) ((1 / 10 + 1 / 20) / 2) (1 / 10)⟩
        ["T"] ["D"] (1 / 10) = Except.ok res ∧
      (("D" ∈ res) ↔ 5 / 100 ≤ ((1 : ℚ) / 10 + 1 / 20) / 2) ∧
      ¬(("D" ∈ res) ↔
        specExogRuleBothAlpha (1 / 10 - 1) ((1 / 10 + 1 / 20) / 2) true (1 / 10))) :=
  ⟨by norm_num, C10_reverse_cut_fixed_at_005 (1 / 10) (by norm_num)⟩

/-! ## C8: the forward semantics of `transform` -/

theorem optionMapM_mem {α β : Type} (f : α → Option β) :
    ∀ (l : List α) (l2 : List β), l.mapM f = some l2 →
      ∀ a ∈ l, ∃ b, f a = some b ∧ b ∈ l2 := by
  intro l
  induction l with
  | nil => intro l2 _ a ha; cases ha
  | cons x xs ih =>
    intro l2 hm a ha
    rw [List.mapM_cons] at hm
    cases hfx : f x with
    | none => rw [hfx] at hm; cases hm
    | some b =>
      rw [hfx] at hm
      cases hxs : xs.mapM f with
      | none => rw [hxs] at hm; cases hm
      | some bs =>
        rw [hxs] at hm
        have hl2 : b :: bs = l2 := by
          simpa using hm
        rcases List.mem_cons.mp ha with rfl | ha2
        · exact ⟨b, hfx, hl2 ▸ List.mem_cons_self b bs⟩
        · obtain ⟨b2, hb2, hmem⟩ := ih bs hxs a ha2
          exact ⟨b2, hb2, hl2 ▸ List.mem_cons_of_mem b hmem⟩

/-- The transformed frame of the specification's scenario (what the
code computes on the series [100, 110, 121, 133.1] under the guide
`loggable=False, norm=100, ndiffs=1, periods=1`). -/
def TC8 : DataFrame :=
  ⟨[1, 2, 3], [("D.A", transformCol LId eA1 [0, 1, 2, 3]
    (fun d => if d ∈ XC8.idx then fC8 d else none))]⟩

/-- C8 (amended): `transform` completes the index to the quarterly
range, applies per column the guide's scaling followed by `ndiffs`
differences at the guide's period, and then drops every row containing
*any* NaN (not only the rows that became all-NaN).  The scenario of the
claim holds as stated: the series [100, 110, 121, 133.1] under
`loggable=False, norm=100, ndiffs=1, periods=1` becomes the first
differences of [1.0, 1.1, 1.21, 1.331], with the NaN head row
dropped. -/
theorem C8_amended_transform_semantics (L : LogModel) (g : List GuideEntry)
    (X T : DataFrame) (hT : PreprocessPipeline_transform L g X = some T) :
    (∀ d : ℤ, d ∈ T.idx ↔ d ∈ asfreqIdx X.idx ∧
      ∀ q ∈ T.cols, (q.2 d).isSome = true) ∧
    (∀ c f, (c, f) ∈ X.cols → ∃ e, guideFor g c = some e ∧
      (transformedName e c, transformCol L e (asfreqIdx X.idx)
        fun d => if d ∈ X.idx then f d else none) ∈ T.cols) ∧
    (∃ T8, PreprocessPipeline_transform L gC8 XC8 = some T8 ∧
      T8.idx = [1, 2, 3] ∧ T8.names = ["D.A"] ∧
      T8.get "D.A" 1 = some (1 / 10) ∧ T8.get "D.A" 2 = some (11 / 100) ∧
      T8.get "D.A" 3 = some (121 / 1000)) := by
  simp only [PreprocessPipeline_transform] at hT
  refine ⟨?_, ?_, ?_⟩
  · split at hT
    · cases hT
    · rename_i cols2 heq
      have hTv := Option.some.inj hT
      intro d
      rw [← hTv]
      simp [DataFrame.asfreqQS, List.mem_filter, List.all_eq_true]
  · split at hT
    · cases hT
    · rename_i cols2 heq
      have hTv := Option.some.inj hT
      intro c f hcf
      have hmem : (c, fun d => if d ∈ X.idx then f d else none) ∈ X.asfreqQS.cols := by
        simp only [DataFrame.asfreqQS]
        exact List.mem_map.mpr ⟨(c, f), hcf, rfl⟩
      obtain ⟨b, hb, hbmem⟩ := optionMapM_mem _ _ _ heq _ hmem
      rw [Option.map_eq_some'] at hb
      obtain ⟨e, he, hbe⟩ := hb
      refine ⟨e, he, ?_⟩
      rw [← hTv]
      exact hbe ▸ hbmem
  · refine ⟨⟨[1, 2, 3], [("D.A", transformCol L eA1 [0, 1, 2, 3]
      (fun d => if d ∈ XC8.idx then fC8 d else none))]⟩, rfl, rfl, rfl, ?_, ?_, ?_⟩
    · show some ((110 : ℚ) / 100 - 100 / 100) = some (1 / 10)
      norm_num
    · show some ((121 : ℚ) / 100 - 110 / 100) = some (11 / 100)
      norm_num
    · show some ((1331 : ℚ) / 10 / 100 - 121 / 100) = some (121 / 1000)
      norm_num

/-- C8 witness: the theorem applied to the scenario table itself. -/
theorem C8_amended_transform_semantics_witness :
    PreprocessPipeline_transform LId gC8 XC8 = some TC8 ∧
    ((∀ d : ℤ, d ∈ TC8.idx ↔ d ∈ asfreqIdx XC8.idx ∧
      ∀ q ∈ TC8.cols, (q.2 d).isSome = true) ∧
    (∀ c f, (c, f) ∈ XC8.cols → ∃ e, guideFor gC8 c = some e ∧
      (transformedName e c, transformCol LId e (asfreqIdx XC8.idx)
        fun d => if d ∈ XC8.idx then f d else none) ∈ TC8.cols) ∧
    (∃ T8, PreprocessPipeline_transform LId gC8 XC8 = some T8 ∧
      T8.idx = [1, 2, 3] ∧ T8.names = ["D.A"] ∧
      T8.get "D.A" 1 = some (1 / 10) ∧ T8.get "D.A" 2 = some (11 / 100) ∧
      T8.get "D.A" 3 = some (121 / 1000))) :=
  ⟨rfl, C8_amended_transform_semantics LId gC8 XC8 TC8 rfl⟩

/-- C8 counterexample: on a clean two-column table whose columns are
differenced a different number of times, the code's `dropna()` drops the
row at date 1 — where only column B is NaN — while the claimed
"drop rows that become all-NaN" keeps it. -/
theorem C8_counterexample_dropna_any_not_all :
    (∃ T, PreprocessPipeline_transform LId gC8b XC8b = some T ∧ T.idx = [2]) ∧
    (∃ S, specTransform_dropAllNaN LId gC8b XC8b = some S ∧ S.idx = [1, 2]) :=
  ⟨⟨_, rfl, rfl⟩, ⟨_, rfl, rfl⟩⟩

/-! ## The contiguous quarterly index -/

theorem mem_qrange {b : ℤ} {n : ℕ} {d : ℤ} : d ∈ qrange b n ↔ b ≤ d ∧ d < b + n := by
  simp only [qrange, List.mem_map, List.mem_range]
  constructor
  · rintro ⟨i, hi, rfl⟩
    omega
  · rintro ⟨h1, h2⟩
    exact ⟨(d - b).toNat, by omega, by omega⟩

theorem qrange_nodup (b : ℤ) (n : ℕ) : (qrange b n).Nodup :=
  (List.nodup_range n).map fun i j h => by omega

theorem qrange_sorted_lt (b : ℤ) (n : ℕ) : (qrange b n).Pairwise (· < ·) := by
  unfold qrange
  rw [List.pairwise_map]
  exact (List.pairwise_lt_range n).imp fun h => by omega

theorem qrange_sorted_le (b : ℤ) (n : ℕ) : (qrange b n).Pairwise (· ≤ ·) :=
  (qrange_sorted_lt b n).imp le_of_lt

theorem qrange_succ (b : ℤ) (n : ℕ) : qrange b (n + 1) = b :: qrange (b + 1) n := by
  unfold qrange
  rw [List.range_succ_eq_map, List.map_cons, List.map_map]
  refine congrArg₂ _ (by simp) (List.map_congr_left fun i _ => ?_)
  show b + ((Nat.succ i : ℕ) : ℤ) = b + 1 + i
  push_cast
  ring

theorem qrange_append (b : ℤ) (m k : ℕ) :
    qrange b (m + k) = qrange b m ++ qrange (b + m) k := by
  unfold qrange
  rw [List.range_add, List.map_append, List.map_map]
  refine congrArg _ (List.map_congr_left fun i _ => ?_)
  show b + ((m + i : ℕ) : ℤ) = b + m + i
  push_cast
  ring

theorem qrange_getD {b : ℤ} {n : ℕ} {i : ℕ} (hi : i < n) :
    (qrange b n).getD i 0 = b + i := by
  unfold qrange
  rw [List.getD_eq_getElem?_getD, List.getElem?_map, List.getElem?_range hi]
  rfl

theorem qrange_findIdxQ {n : ℕ} : ∀ {b d : ℤ}, d ∈ qrange b n →
    (qrange b n).findIdx? (· == d) = some (d - b).toNat := by
  induction n with
  | zero => intro b d hd; cases hd
  | succ m ih =>
    intro b d hd
    rw [qrange_succ] at hd ⊢
    rw [List.findIdx?_cons]
    by_cases hdb : d = b
    · subst hdb
      simp
    · have hbne : (b == d) = false := by
        simp [Ne.symm hdb]
      rw [hbne]
      have hd2 : d ∈ qrange (b + 1) m := by
        rcases List.mem_cons.mp hd with h | h
        · exact absurd h hdb
        · exact h
      have hge := (mem_qrange.mp hd2).1
      rw [if_neg (by simp), List.findIdx?_succ, ih hd2]
      simp only [Option.map_some']
      congr 1
      omega

theorem qrange_findIdxQ_none {b : ℤ} {n : ℕ} {d : ℤ} (hd : d ∉ qrange b n) :
    (qrange b n).findIdx? (· == d) = none :=
  List.findIdx?_eq_none_iff.mpr fun x hx => by
    simp only [beq_eq_false_iff_ne]
    rintro rfl
    exact hd hx

theorem asfreqIdx_qrange (b : ℤ) (n : ℕ) (hn : 0 < n) :
    asfreqIdx (qrange b n) = qrange b n := by
  haveI : Std.Antisymm ((· ≤ ·) : ℤ → ℤ → Prop) := ⟨fun h1 h2 => le_antisymm h1 h2⟩
  have hmin : (qrange b n).min? = some b := by
    rw [List.min?_eq_some_iff (fun _ => le_refl _) (fun a c => min_choice a c)
      (fun _ _ _ => le_min_iff)]
    exact ⟨mem_qrange.mpr ⟨le_refl b, by omega⟩, fun x hx => (mem_qrange.mp hx).1⟩
  have hmax : (qrange b n).max? = some (b + n - 1) := by
    rw [List.max?_eq_some_iff (fun _ => le_refl _) (fun a c => max_choice a c)
      (fun _ _ _ => max_le_iff)]
    refine ⟨mem_qrange.mpr ⟨by omega, by omega⟩, fun x hx => ?_⟩
    have := (mem_qrange.mp hx).2
    omega
  unfold asfreqIdx
  rw [hmin, hmax]
  show qrange b (b + (n : ℤ) - 1 - b + 1).toNat = qrange b n
  rw [show (b + (n : ℤ) - 1 - b + 1).toNat = n by omega]

theorem qrange_filter_le (b : ℤ) (n D : ℕ) (hD : D ≤ n) :
    (qrange b n).filter (fun d => decide (b + (D : ℤ) ≤ d)) =
      qrange (b + D) (n - D) := by
  have hsplit : qrange b n = qrange b D ++ qrange (b + D) (n - D) := by
    rw [← qrange_append]
    congr 1
    omega
  rw [hsplit, List.filter_append]
  have h1 : (qrange b D).filter (fun d => decide (b + (D : ℤ) ≤ d)) = [] := by
    rw [List.filter_eq_nil_iff]
    intro a ha
    have := (mem_qrange.mp ha).2
    simp only [decide_eq_true_eq]
    omega
  have h2 : (qrange (b + D) (n - D)).filter (fun d => decide (b + (D : ℤ) ≤ d)) =
      qrange (b + D) (n - D) := by
    rw [List.filter_eq_self]
    intro a ha
    have := (mem_qrange.mp ha).1
    simpa using this
  rw [h1, h2, List.nil_append]

theorem sortedUnion_eq_left {R : List ℤ} {b : ℤ} {n : ℕ}
    (hR : ∀ d ∈ R, d ∈ qrange b n) : sortedUnion (qrange b n) R = qrange b n := by
  unfold sortedUnion
  have hperm : List.Perm (sortByKey (fun d => d) ((qrange b n ++ R).dedup))
      (qrange b n) := by
    refine (sortByKey_perm _ _).trans ?_
    rw [List.perm_ext_iff_of_nodup (List.nodup_dedup _) (qrange_nodup b n)]
    intro a
    rw [List.mem_dedup, List.mem_append]
    constructor
    · rintro (h | h)
      · exact h
      · exact hR a h
    · exact fun h => Or.inl h
  exact List.eq_of_perm_of_sorted hperm (sortByKey_sorted (fun d => d) _)
    (qrange_sorted_le b n)

/-! ## The differencing window -/

theorem winVal_isSome {b : ℤ} {N m : ℕ} {φ : ℤ → ℚ} {d : ℤ} :
    (winVal b N m φ d).isSome = true ↔ d ∈ qrange b N ∧ b + (m : ℤ) ≤ d := by
  unfold winVal
  split <;> simp_all

theorem diffP_eval_some {p : ℕ} {idx : List ℤ} {f : ℤ → Option ℚ} {d : ℤ} {i : ℕ}
    (h : idx.findIdx? (· == d) = some i) :
    diffP p idx f d = if i < p then none else
      match f d, f (idx.getD (i - p) 0) with
      | some a, some c => some (a - c)
      | _, _ => none := by
  unfold diffP
  rw [h]

theorem diffP_eval_none {p : ℕ} {idx : List ℤ} {f : ℤ → Option ℚ} {d : ℤ}
    (h : idx.findIdx? (· == d) = none) : diffP p idx f d = none := by
  unfold diffP
  rw [h]

theorem diffP_winVal (b : ℤ) (N m p : ℕ) (φ : ℤ → ℚ) (hp : 0 < p) :
    diffP p (qrange b N) (winVal b N m φ) = winVal b N (m + p) (dOp p φ) := by
  funext d
  by_cases hd : d ∈ qrange b N
  · have hdm := mem_qrange.mp hd
    rw [diffP_eval_some (qrange_findIdxQ hd)]
    by_cases hip : (d - b).toNat < p
    · rw [if_pos hip]
      unfold winVal
      rw [if_neg (by rintro ⟨_, h⟩; omega)]
    · rw [if_neg hip, qrange_getD (show (d - b).toNat - p < N by omega),
        show b + (((d - b).toNat - p : ℕ) : ℤ) = d - p by omega]
      unfold winVal dOp
      simp only [mem_qrange]
      split_ifs <;> first | rfl | omega
  · rw [diffP_eval_none (qrange_findIdxQ_none hd)]
    unfold winVal
    rw [if_neg fun hc => hd hc.1]

theorem diffPN_winVal (b : ℤ) (N m p : ℕ) (φ : ℤ → ℚ) (hp : 0 < p) (k : ℕ) :
    diffPN k p (qrange b N) (winVal b N m φ) =
      winVal b N (m + k * p) (dIter p k φ) := by
  induction k with
  | zero =>
    show winVal b N m φ = winVal b N (m + 0 * p) (dIter p 0 φ)
    rw [show m + 0 * p = m from by ring]
    rfl
  | succ k ih =>
    show diffP p (qrange b N) (diffPN k p (qrange b N) (winVal b N m φ)) = _
    rw [ih, diffP_winVal b N (m + k * p) p (dIter p k φ) hp,
      show m + k * p + p = m + (k + 1) * p from by ring]
    rfl

/-! ## The cumulative reconstruction walk -/

theorem walkAdd_cons (p : ℕ) (M : List ℤ) (d : ℤ) (rest : List ℤ)
    (v : ℤ → Option ℚ) :
    walkAdd p M (d :: rest) v = walkAdd p M rest (fun d2 =>
      if d2 = d then
        match v d, if (d - (p : ℤ)) ∈ M then v (d - (p : ℤ)) else none with
        | some a, some c => some (a + c)
        | _, _ => none
      else v d2) := rfl

/-- Correctness of the in-place walk: processing a strictly ascending
list `L` of dates whose values hold the finite differences of `g`, and
whose shifted predecessors are either earlier in `L` or already hold
`g`, rewrites every processed date to `g` itself and leaves every other
date untouched. -/
theorem walkAdd_correct (p : ℕ) (Mdates : List ℤ) (g : ℤ → ℚ) (hp : 0 < p) :
    ∀ (L : List ℤ) (v : ℤ → Option ℚ), L.Pairwise (· < ·) →
      (∀ d ∈ L, (d - (p : ℤ)) ∈ Mdates) →
      (∀ d ∈ L, v d = some (g d - g (d - (p : ℤ)))) →
      (∀ d ∈ L, (d - (p : ℤ)) ∈ L ∨ v (d - (p : ℤ)) = some (g (d - (p : ℤ)))) →
      ∀ d2, walkAdd p Mdates L v d2 = if d2 ∈ L then some (g d2) else v d2 := by
  intro L
  induction L with
  | nil =>
    intro v _ _ _ _ d2
    simp [walkAdd]
  | cons d rest ih =>
    intro v hpw hmem hval hprev d2
    rw [List.pairwise_cons] at hpw
    rw [walkAdd_cons]
    set v2 : ℤ → Option ℚ := fun d2 =>
      if d2 = d then
        match v d, if (d - (p : ℤ)) ∈ Mdates then v (d - (p : ℤ)) else none with
        | some a, some c => some (a + c)
        | _, _ => none
      else v d2 with hv2def
    have hdp_not : (d - (p : ℤ)) ∉ (d :: rest) := by
      intro hc
      rcases List.mem_cons.mp hc with hc | hc
      · omega
      · have := hpw.1 _ hc
        omega
    have hv2d : v2 d = some (g d) := by
      have hvd := hval d (List.mem_cons_self d rest)
      have hvdp : v (d - (p : ℤ)) = some (g (d - (p : ℤ))) :=
        (hprev d (List.mem_cons_self d rest)).resolve_left fun hc => absurd hc hdp_not
      have hmd := hmem d (List.mem_cons_self d rest)
      rw [hv2def]
      simp only [if_pos rfl, if_pos hmd, hvd, hvdp]
      exact congrArg some (by ring)
    have hv2ne : ∀ x, x ≠ d → v2 x = v x := by
      intro x hx
      rw [hv2def]
      simp only [if_neg hx]
    have hval2 : ∀ x ∈ rest, v2 x = some (g x - g (x - (p : ℤ))) := by
      intro x hx
      have hne : x ≠ d := by
        have := hpw.1 x hx
        omega
      rw [hv2ne x hne]
      exact hval x (List.mem_cons_of_mem d hx)
    have hprev2 : ∀ x ∈ rest, (x - (p : ℤ)) ∈ rest ∨
        v2 (x - (p : ℤ)) = some (g (x - (p : ℤ))) := by
      intro x hx
      rcases hprev x (List.mem_cons_of_mem d hx) with hc | hc
      · rcases List.mem_cons.mp hc with hc2 | hc2
        · right
          rw [hc2, hv2d]
        · exact Or.inl hc2
      · by_cases hxd : x - (p : ℤ) = d
        · right
          rw [hxd, hv2d]
        · right
          rw [hv2ne _ hxd]
          exact hc
    rw [ih v2 hpw.2 (fun x hx => hmem x (List.mem_cons_of_mem d hx)) hval2 hprev2 d2]
    by_cases hd2r : d2 ∈ rest
    · rw [if_pos hd2r, if_pos (List.mem_cons_of_mem d hd2r)]
    · rw [if_neg hd2r]
      by_cases hd2d : d2 = d
      · rw [hd2d, hv2d, if_pos (List.mem_cons_self d rest)]
      · rw [hv2ne d2 hd2d, if_neg (by
          intro hc
          rcases List.mem_cons.mp hc with hc2 | hc2
          · exact hd2d hc2
          · exact hd2r hc2)]

/-! ## One iteration of the un-differencing loop -/

theorem invStep_ok (e : GuideEntry) (b0 : ℤ) (N : ℕ) (σ : ℤ → ℚ) (k : ℕ)
    (f0 feature : QSeries)
    (hp : 0 < e.periods)
    (hDN : e.ndiffs * e.periods < N)
    (hk : k * e.periods + e.periods ≤ e.ndiffs * e.periods)
    (hf0i : f0.idx = qrange b0 N)
    (hf0v : ∀ d, f0.val d = if d ∈ qrange b0 N then some (σ d) else none)
    (hfi : feature.idx =
      qrange (b0 + (e.ndiffs * e.periods : ℕ)) (N - e.ndiffs * e.periods))
    (hfv : ∀ d ∈ qrange (b0 + (e.ndiffs * e.periods : ℕ)) (N - e.ndiffs * e.periods),
      feature.val d = some (dIter e.periods (k + 1) σ d)) :
    ∃ F, invStep e f0
        (qrange (b0 + (e.ndiffs * e.periods : ℕ)) (N - e.ndiffs * e.periods)) (k + 1)
        feature = Except.ok F ∧
      F.idx = qrange (b0 + (e.ndiffs * e.periods : ℕ)) (N - e.ndiffs * e.periods) ∧
      ∀ d ∈ qrange (b0 + (e.ndiffs * e.periods : ℕ)) (N - e.ndiffs * e.periods),
        F.val d = some (dIter e.periods k σ d) := by
  obtain ⟨f0i, f0val⟩ := f0
  obtain ⟨fi, fval⟩ := feature
  simp only at hf0i hf0v hfi hfv
  subst hf0i
  subst hfi
  have hsub : ∀ d ∈ qrange (b0 + ((e.ndiffs * e.periods : ℕ) : ℤ))
      (N - e.ndiffs * e.periods), d ∈ qrange b0 N := by
    intro d hd
    have := mem_qrange.mp hd
    refine mem_qrange.mpr ⟨by omega, by omega⟩
  simp only [invStep]
  have hM : (List.filter
      (fun d =>
        (if d ∈ qrange b0 N then f0val d else none).isSome ||
          (if d ∈ qrange (b0 + ((e.ndiffs * e.periods : ℕ) : ℤ))
              (N - e.ndiffs * e.periods) then fval d else none).isSome)
      (sortedUnion (qrange b0 N)
        (qrange (b0 + ((e.ndiffs * e.periods : ℕ) : ℤ)) (N - e.ndiffs * e.periods)))) =
      qrange b0 N := by
    rw [sortedUnion_eq_left hsub, List.filter_eq_self]
    intro a ha
    rw [if_pos ha, hf0v a, if_pos ha]
    simp
  rw [hM]
  have hbase : (fun d => if d ∈ qrange b0 N then
      if d ∈ qrange b0 N then f0val d else none else none) = winVal b0 N 0 σ := by
    funext d
    by_cases hd : d ∈ qrange b0 N
    · rw [if_pos hd, if_pos hd, hf0v d, if_pos hd]
      unfold winVal
      rw [if_pos ⟨hd, by have := (mem_qrange.mp hd).1; omega⟩]
    · rw [if_neg hd]
      unfold winVal
      rw [if_neg fun hc => hd hc.1]
  rw [hbase]
  simp only [Nat.add_sub_cancel]
  have hM0 := diffPN_winVal b0 N 0 e.periods σ hp k
  rw [Nat.zero_add] at hM0
  rw [hM0]
  have hfilter : (List.filter
      (fun d => (if d ∈ qrange b0 N then
          if d ∈ qrange (b0 + ((e.ndiffs * e.periods : ℕ) : ℤ)) (N - e.ndiffs * e.periods)
          then fval d else none
        else none).isSome)
      (qrange b0 N)) =
      qrange (b0 + ((e.ndiffs * e.periods : ℕ) : ℤ)) (N - e.ndiffs * e.periods) := by
    have hcongr : ∀ a ∈ qrange b0 N,
        ((if a ∈ qrange b0 N then
          if a ∈ qrange (b0 + ((e.ndiffs * e.periods : ℕ) : ℤ)) (N - e.ndiffs * e.periods)
          then fval a else none
        else none).isSome) = decide (b0 + ((e.ndiffs * e.periods : ℕ) : ℤ) ≤ a) := by
      intro a ha
      rw [if_pos ha]
      by_cases haR : a ∈ qrange (b0 + ((e.ndiffs * e.periods : ℕ) : ℤ)) (N - e.ndiffs * e.periods)
      · rw [if_pos haR, hfv a haR]
        exact (decide_eq_true (mem_qrange.mp haR).1).symm
      · rw [if_neg haR]
        have hna : ¬(b0 + ((e.ndiffs * e.periods : ℕ) : ℤ) ≤ a) := by
          intro hle
          exact haR (mem_qrange.mpr ⟨hle, by have := (mem_qrange.mp ha).2; omega⟩)
        exact (decide_eq_false hna).symm
    rw [List.filter_congr hcongr,
      qrange_filter_le b0 N (e.ndiffs * e.periods) (le_of_lt hDN)]
  rw [hfilter]
  have hstart : (qrange (b0 + ((e.ndiffs * e.periods : ℕ) : ℤ))
      (N - e.ndiffs * e.periods)).headD 0 = b0 + ((e.ndiffs * e.periods : ℕ) : ℤ) := by
    rw [show N - e.ndiffs * e.periods = (N - e.ndiffs * e.periods - 1) + 1 from by omega,
      qrange_succ]
    rfl
  rw [hstart, qrange_filter_le b0 N (e.ndiffs * e.periods) (le_of_lt hDN)]
  have hany : ((qrange b0 N).any fun d =>
      (winVal b0 N (k * e.periods) (dIter e.periods k σ) d).isSome &&
      (if d ∈ qrange (b0 + ((e.ndiffs * e.periods : ℕ) : ℤ)) (N - e.ndiffs * e.periods)
        then fval d else none).isSome) = true := by
    rw [List.any_eq_true]
    refine ⟨b0 + ((e.ndiffs * e.periods : ℕ) : ℤ),
      mem_qrange.mpr ⟨by omega, by omega⟩, ?_⟩
    have hmemR : b0 + ((e.ndiffs * e.periods : ℕ) : ℤ) ∈
        qrange (b0 + ((e.ndiffs * e.periods : ℕ) : ℤ)) (N - e.ndiffs * e.periods) :=
      mem_qrange.mpr ⟨le_refl _, by omega⟩
    rw [if_pos hmemR, hfv _ hmemR]
    have hw : (winVal b0 N (k * e.periods) (dIter e.periods k σ)
        (b0 + ((e.ndiffs * e.periods : ℕ) : ℤ))).isSome = true :=
      winVal_isSome.mpr ⟨mem_qrange.mpr ⟨by omega, by omega⟩, by omega⟩
    rw [hw]
    rfl
  rw [if_neg (not_not_intro hany)]
  set fil : ℤ → Option ℚ := fun d =>
    if d ∈ qrange b0 N then
      (if d ∈ qrange b0 N then
          if d ∈ qrange (b0 + ((e.ndiffs * e.periods : ℕ) : ℤ)) (N - e.ndiffs * e.periods)
          then fval d else none
        else none).orElse
        fun x => winVal b0 N (k * e.periods) (dIter e.periods k σ) d
    else none with hfil
  have hmemW : ∀ x ∈ qrange (b0 + ((e.ndiffs * e.periods : ℕ) : ℤ))
      (N - e.ndiffs * e.periods), (x - (e.periods : ℤ)) ∈ qrange b0 N := by
    intro x hx
    have := mem_qrange.mp hx
    exact mem_qrange.mpr ⟨by omega, by omega⟩
  have hvalW : ∀ x ∈ qrange (b0 + ((e.ndiffs * e.periods : ℕ) : ℤ))
      (N - e.ndiffs * e.periods),
      fil x = some (dIter e.periods k σ x - dIter e.periods k σ (x - (e.periods : ℤ))) := by
    intro x hx
    simp only [hfil]
    rw [if_pos (hsub x hx), if_pos (hsub x hx), if_pos hx, hfv x hx]
    rfl
  have hprevW : ∀ x ∈ qrange (b0 + ((e.ndiffs * e.periods : ℕ) : ℤ))
      (N - e.ndiffs * e.periods),
      (x - (e.periods : ℤ)) ∈ qrange (b0 + ((e.ndiffs * e.periods : ℕ) : ℤ))
        (N - e.ndiffs * e.periods) ∨
      fil (x - (e.periods : ℤ)) = some (dIter e.periods k σ (x - (e.periods : ℤ))) := by
    intro x hx
    by_cases hxp : (x - (e.periods : ℤ)) ∈
        qrange (b0 + ((e.ndiffs * e.periods : ℕ) : ℤ)) (N - e.ndiffs * e.periods)
    · exact Or.inl hxp
    · right
      have hxq := mem_qrange.mp hx
      have hmemq : (x - (e.periods : ℤ)) ∈ qrange b0 N :=
        mem_qrange.mpr ⟨by omega, by omega⟩
      simp only [hfil]
      rw [if_pos hmemq, if_pos hmemq, if_neg hxp]
      show winVal b0 N (k * e.periods) (dIter e.periods k σ) (x - (e.periods : ℤ)) = _
      unfold winVal
      rw [if_pos ⟨hmemq, by omega⟩]
  have hwalk := walkAdd_correct e.periods (qrange b0 N) (dIter e.periods k σ) hp
    (qrange (b0 + ((e.ndiffs * e.periods : ℕ) : ℤ)) (N - e.ndiffs * e.periods)) fil
    (qrange_sorted_lt _ _) hmemW hvalW hprevW
  refine ⟨_, rfl, rfl, ?_⟩
  intro d hd
  show (if d ∈ qrange (b0 + ((e.ndiffs * e.periods : ℕ) : ℤ)) (N - e.ndiffs * e.periods) ∧
      d ∈ qrange b0 N then walkAdd e.periods (qrange b0 N)
        (qrange (b0 + ((e.ndiffs * e.periods : ℕ) : ℤ)) (N - e.ndiffs * e.periods)) fil d
      else none) = some (dIter e.periods k σ d)
  rw [if_pos ⟨hd, hsub d hd⟩, hwalk d, if_pos hd]

/-! ## The whole un-differencing loop -/

theorem invLoop_ok (e : GuideEntry) (b0 : ℤ) (N : ℕ) (σ : ℤ → ℚ) (f0 : QSeries)
    (hp : 0 < e.periods) (hDN : e.ndiffs * e.periods < N)
    (hf0i : f0.idx = qrange b0 N)
    (hf0v : ∀ d, f0.val d = if d ∈ qrange b0 N then some (σ d) else none) :
    ∀ k : ℕ, k ≤ e.ndiffs → ∀ feature : QSeries,
      feature.idx =
        qrange (b0 + (e.ndiffs * e.periods : ℕ)) (N - e.ndiffs * e.periods) →
      (∀ d ∈ qrange (b0 + (e.ndiffs * e.periods : ℕ)) (N - e.ndiffs * e.periods),
        feature.val d = some (dIter e.periods k σ d)) →
      ∃ F, invLoop e f0
          (qrange (b0 + (e.ndiffs * e.periods : ℕ)) (N - e.ndiffs * e.periods)) k
          feature = Except.ok F ∧
        F.idx = qrange (b0 + (e.ndiffs * e.periods : ℕ)) (N - e.ndiffs * e.periods) ∧
        ∀ d ∈ qrange (b0 + (e.ndiffs * e.periods : ℕ)) (N - e.ndiffs * e.periods),
          F.val d = some (σ d) := by
  intro k
  induction k with
  | zero =>
    intro _ feature hfi hfv
    exact ⟨feature, rfl, hfi, fun d hd => hfv d hd⟩
  | succ k ih =>
    intro hk feature hfi hfv
    have hkk : k * e.periods + e.periods ≤ e.ndiffs * e.periods := by
      have h1 : (k + 1) * e.periods ≤ e.ndiffs * e.periods :=
        Nat.mul_le_mul_right e.periods hk
      calc k * e.periods + e.periods = (k + 1) * e.periods := by ring
        _ ≤ e.ndiffs * e.periods := h1
    obtain ⟨F1, hstep, hF1i, hF1v⟩ :=
      invStep_ok e b0 N σ k f0 feature hp hDN hkk hf0i hf0v hfi hfv
    obtain ⟨F, hloop, hFi, hFv⟩ := ih (Nat.le_of_succ_le hk) F1 hF1i hF1v
    refine ⟨F, ?_, hFi, hFv⟩
    have hunfold : invLoop e f0
        (qrange (b0 + (e.ndiffs * e.periods : ℕ)) (N - e.ndiffs * e.periods)) (k + 1)
        feature =
        Except.bind (invStep e f0
          (qrange (b0 + (e.ndiffs * e.periods : ℕ)) (N - e.ndiffs * e.periods)) (k + 1)
          feature)
          (invLoop e f0
            (qrange (b0 + (e.ndiffs * e.periods : ℕ)) (N - e.ndiffs * e.periods)) k) :=
      rfl
    rw [hunfold, hstep]
    exact hloop

/-! ## The output names of the transform -/

theorem lastDotSegment_cons2 (l : List Char) :
    lastDotSegment (String.mk ('D' :: '.' :: l)) = lastDotSegment (String.mk l) := by
  unfold lastDotSegment
  rw [show (String.mk ('D' :: '.' :: l)).data = 'D' :: '.' :: l from rfl,
    splitChar_cons, if_neg (by decide), splitChar_cons, if_pos rfl]
  simp only [List.headD_cons, List.tail_cons]
  cases hs : splitChar '.' l with
  | nil => exact absurd hs (splitChar_ne_nil '.' l)
  | cons s rest =>
    rw [List.getLastD_cons, List.getLastD_cons, List.getLastD_cons]

theorem lastDotSegment_dMark (n : ℕ) (s : String) :
    lastDotSegment (dMark n s) = lastDotSegment s := by
  induction n with
  | zero => rfl
  | succ n ih =>
    show lastDotSegment ("D." ++ dMark n s) = _
    rw [show ("D." ++ dMark n s) = String.mk ('D' :: '.' :: (dMark n s).data) from by
      apply String.ext
      rw [String.data_append]
      rfl]
    rw [lastDotSegment_cons2]
    rw [show String.mk (dMark n s).data = dMark n s from rfl]
    exact ih

theorem lastDotSegment_Ln (A : String) (h : '.' ∉ A.data) :
    lastDotSegment ("Ln." ++ A) = A := by
  unfold lastDotSegment
  rw [show ("Ln." ++ A).data = 'L' :: 'n' :: '.' :: A.data from by
      rw [String.data_append]; rfl,
    splitChar_cons, if_neg (by decide), splitChar_cons, if_neg (by decide),
    splitChar_cons, if_pos rfl, splitChar_not_mem '.' A.data h]
  simp only [List.headD_cons, List.tail_cons, List.getLastD_cons]
  rfl

theorem strDrop_dMark (n : ℕ) (s : String) : strDrop (dMark n s) (2 * n) = s := by
  induction n with
  | zero =>
    show String.mk (s.data.drop 0) = s
    rw [List.drop_zero]
  | succ n ih =>
    show String.mk (("D." ++ dMark n s).data.drop (2 * (n + 1))) = s
    rw [String.data_append, show ("D.".data) = ['D', '.'] from rfl,
      show 2 * (n + 1) = 2 * n + 1 + 1 from by ring]
    rw [List.cons_append, List.cons_append, List.drop_succ_cons, List.drop_succ_cons]
    exact ih

theorem strDrop_Ln (A : String) : strDrop ("Ln." ++ A) 3 = A := by
  show String.mk (("Ln." ++ A).data.drop 3) = A
  rw [show ("Ln." ++ A).data = 'L' :: 'n' :: '.' :: A.data from by
    rw [String.data_append]; rfl]
  rfl

theorem startsWith_Ln (A : String) : strStartsWith ("Ln." ++ A) "Ln." = true := by
  unfold strStartsWith
  rw [show ("Ln." ++ A).data = 'L' :: 'n' :: '.' :: A.data from by
      rw [String.data_append]; rfl,
    show "Ln.".data = ['L', 'n', '.'] from rfl, List.isPrefixOf_iff_prefix]
  exact ⟨A.data, rfl⟩

theorem not_startsWith_Ln (A : String) (h : '.' ∉ A.data) :
    strStartsWith A "Ln." = false := by
  cases hb : strStartsWith A "Ln."
  · rfl
  · exfalso
    unfold strStartsWith at hb
    have hpre : ("Ln.".data) <+: A.data := List.isPrefixOf_iff_prefix.mp hb
    exact h (hpre.sublist.subset (by decide))

theorem guideFor_self (e : GuideEntry) : guideFor [e] e.varName = some e := by
  unfold guideFor
  rw [List.find?_cons_of_pos]
  exact beq_self_eq_true e.varName

/-! ## The transform of a clean single-column table -/

theorem transform_single_ok (L : LogModel) (e : GuideEntry) (b0 : ℤ) (N : ℕ)
    (φ : ℤ → ℚ) (hp : 0 < e.periods) (hDN : e.ndiffs * e.periods < N) :
    PreprocessPipeline_transform L [e]
        ⟨qrange b0 N, [(e.varName, fun d => some (φ d))]⟩ =
      some ⟨qrange (b0 + (e.ndiffs * e.periods : ℕ)) (N - e.ndiffs * e.periods),
        [(transformedName e e.varName,
          winVal b0 N (e.ndiffs * e.periods)
            (dIter e.periods e.ndiffs fun d => scaleVal L e (φ d)))]⟩ := by
  have hN : 0 < N := lt_of_le_of_lt (Nat.zero_le _) hDN
  simp only [PreprocessPipeline_transform, DataFrame.asfreqQS]
  rw [asfreqIdx_qrange b0 N hN]
  simp only [List.map_cons, List.map_nil, List.mapM_cons, List.mapM_nil,
    guideFor_self, Option.map_some', Option.some_bind, Option.bind_some,
    bind, Option.bind, pure]
  have hscale : (fun d => (if d ∈ qrange b0 N then some (φ d) else none).map
      (scaleVal L e)) = winVal b0 N 0 (fun d => scaleVal L e (φ d)) := by
    funext d
    by_cases hd : d ∈ qrange b0 N
    · rw [if_pos hd]
      unfold winVal
      rw [if_pos ⟨hd, by have := (mem_qrange.mp hd).1; omega⟩]
      rfl
    · rw [if_neg hd]
      unfold winVal
      rw [if_neg fun hc => hd hc.1]
      rfl
  have hcol : transformCol L e (qrange b0 N)
      (fun d => if d ∈ qrange b0 N then some (φ d) else none) =
      winVal b0 N (e.ndiffs * e.periods)
        (dIter e.periods e.ndiffs fun d => scaleVal L e (φ d)) := by
    unfold transformCol
    rw [hscale, diffPN_winVal b0 N 0 e.periods _ hp e.ndiffs, Nat.zero_add]
  rw [hcol]
  have hcongr : ∀ a ∈ qrange b0 N,
      ([(transformedName e e.varName, winVal b0 N (e.ndiffs * e.periods)
          (dIter e.periods e.ndiffs fun d => scaleVal L e (φ d)))].all
        fun q => (q.2 a).isSome) =
      decide (b0 + ((e.ndiffs * e.periods : ℕ) : ℤ) ≤ a) := by
    intro a ha
    simp only [List.all_cons, List.all_nil, Bool.and_true]
    by_cases hle : b0 + ((e.ndiffs * e.periods : ℕ) : ℤ) ≤ a
    · rw [winVal_isSome.mpr ⟨ha, hle⟩, decide_eq_true hle]
    · have h1 : (winVal b0 N (e.ndiffs * e.periods)
          (dIter e.periods e.ndiffs fun d => scaleVal L e (φ d)) a).isSome = false := by
        cases hb : (winVal b0 N (e.ndiffs * e.periods)
            (dIter e.periods e.ndiffs fun d => scaleVal L e (φ d)) a).isSome
        · rfl
        · exact absurd (winVal_isSome.mp hb).2 hle
      rw [h1, decide_eq_false hle]
  rw [List.filter_congr hcongr,
    qrange_filter_le b0 N (e.ndiffs * e.periods) (le_of_lt hDN)]

/-! ## The inverse of the transformed single column -/

theorem inverseCol_single_ok (L : LogModel) (e : GuideEntry) (b0 : ℤ) (N : ℕ)
    (φ : ℤ → ℚ)
    (hp : 0 < e.periods) (hDN : e.ndiffs * e.periods < N)
    (hclean : '.' ∉ e.varName.data)
    (hnorm : e.norm ≠ 0)
    (hlognorm : e.loggable = true → e.norm = 1)
    (hexp : ∀ q : ℚ, L.exp (L.log q) = q) :
    ∃ S, inverseCol L [e]
        (DataFrame.asfreqQS ⟨qrange b0 N, [(e.varName, fun d => some (φ d))]⟩)
        (qrange (b0 + (e.ndiffs * e.periods : ℕ)) (N - e.ndiffs * e.periods))
        (qrange (b0 + (e.ndiffs * e.periods : ℕ)) (N - e.ndiffs * e.periods))
        (transformedName e e.varName)
        (fun d => if d ∈ qrange (b0 + (e.ndiffs * e.periods : ℕ))
            (N - e.ndiffs * e.periods)
          then winVal b0 N (e.ndiffs * e.periods)
            (dIter e.periods e.ndiffs fun d => scaleVal L e (φ d)) d else none) =
      Except.ok (e.varName, S) ∧
      S.idx = qrange (b0 + (e.ndiffs * e.periods : ℕ)) (N - e.ndiffs * e.periods) ∧
      ∀ d ∈ qrange (b0 + (e.ndiffs * e.periods : ℕ)) (N - e.ndiffs * e.periods),
        S.val d = some (φ d) := by
  have hN : 0 < N := lt_of_le_of_lt (Nat.zero_le _) hDN
  have horig : lastDotSegment (transformedName e e.varName) = e.varName := by
    unfold transformedName
    rw [lastDotSegment_dMark]
    by_cases hL : e.loggable = true
    · rw [if_pos hL]
      exact lastDotSegment_Ln _ hclean
    · rw [if_neg hL]
      exact lastDotSegment_no_dot _ hclean
  simp only [inverseCol, horig]
  have hcont : ((⟨qrange b0 N, [(e.varName, fun d => some (φ d))]⟩ :
      DataFrame).asfreqQS.names.contains e.varName) = true := by
    simp [DataFrame.asfreqQS, DataFrame.names]
  rw [if_neg (not_not_intro hcont)]
  simp only [guideFor_self]
  have hget : ∀ d, (DataFrame.asfreqQS
      ⟨qrange b0 N, [(e.varName, fun d => some (φ d))]⟩).get e.varName d =
      if d ∈ qrange b0 N then some (φ d) else none := by
    intro d
    unfold DataFrame.get DataFrame.asfreqQS
    simp only [List.map_cons, List.map_nil]
    rw [asfreqIdx_qrange b0 N hN]
    by_cases hd : d ∈ qrange b0 N
    · rw [if_pos hd, if_pos hd]
      have hfind : List.find? (fun p : String × (ℤ → Option ℚ) => p.1 == e.varName)
          [(e.varName, fun d => if d ∈ qrange b0 N then some (φ d) else none)] =
          some (e.varName, fun d => if d ∈ qrange b0 N then some (φ d) else none) := by
        simp
      rw [hfind]
      show (if d ∈ qrange b0 N then some (φ d) else none) = some (φ d)
      rw [if_pos hd]
    · rw [if_neg hd, if_neg hd]
  obtain ⟨F, hloop, hFi, hFv⟩ := invLoop_ok e b0 N (fun d => scaleVal L e (φ d))
    ⟨(DataFrame.asfreqQS ⟨qrange b0 N, [(e.varName, fun d => some (φ d))]⟩).idx,
     fun d => Option.map (fun v => if e.loggable = true then L.log v else v / e.norm)
       ((DataFrame.asfreqQS ⟨qrange b0 N,
         [(e.varName, fun d => some (φ d))]⟩).get e.varName d)⟩
    hp hDN (asfreqIdx_qrange b0 N hN)
    (fun d => by
      show Option.map (fun v => if e.loggable = true then L.log v else v / e.norm)
        ((DataFrame.asfreqQS ⟨qrange b0 N,
          [(e.varName, fun d => some (φ d))]⟩).get e.varName d) = _
      rw [hget d]
      by_cases hd : d ∈ qrange b0 N
      · rw [if_pos hd, if_pos hd]
        rfl
      · rw [if_neg hd, if_neg hd]
        rfl)
    e.ndiffs (le_refl _)
    ⟨qrange (b0 + (e.ndiffs * e.periods : ℕ)) (N - e.ndiffs * e.periods),
     fun d => if d ∈ qrange (b0 + (e.ndiffs * e.periods : ℕ))
         (N - e.ndiffs * e.periods) then
       (if d ∈ qrange (b0 + (e.ndiffs * e.periods : ℕ)) (N - e.ndiffs * e.periods) then
         winVal b0 N (e.ndiffs * e.periods)
           (dIter e.periods e.ndiffs fun d => scaleVal L e (φ d)) d
       else none) else none⟩
    rfl
    (fun d hd => by
      show (if d ∈ qrange (b0 + (e.ndiffs * e.periods : ℕ))
          (N - e.ndiffs * e.periods) then
        (if d ∈ qrange (b0 + (e.ndiffs * e.periods : ℕ)) (N - e.ndiffs * e.periods) then
          winVal b0 N (e.ndiffs * e.periods)
            (dIter e.periods e.ndiffs fun d => scaleVal L e (φ d)) d
        else none) else none) = _
      rw [if_pos hd, if_pos hd]
      unfold winVal
      rw [if_pos ⟨by
        have := mem_qrange.mp hd
        exact mem_qrange.mpr ⟨by omega, by omega⟩, (mem_qrange.mp hd).1⟩])
  simp only [hloop]
  have hdrop : strDrop (transformedName e e.varName) (2 * e.ndiffs) =
      (if e.loggable = true then "Ln." ++ e.varName else e.varName) := by
    unfold transformedName
    exact strDrop_dMark e.ndiffs _
  rw [hdrop]
  by_cases hL : e.loggable = true
  · rw [if_pos hL, if_pos (startsWith_Ln e.varName), strDrop_Ln]
    refine ⟨_, rfl, hFi, ?_⟩
    intro d hd
    show Option.map (fun x => x * e.norm) (Option.map L.exp (F.val d)) = some (φ d)
    rw [hFv d hd]
    have hsv : scaleVal L e (φ d) = L.log (φ d) := by
      unfold scaleVal
      rw [if_pos hL]
    rw [hsv]
    simp only [Option.map_some']
    rw [hexp (φ d), hlognorm hL, mul_one]
  · rw [if_neg hL,
      if_neg (show ¬(strStartsWith e.varName "Ln." = true) from fun hc =>
        Bool.noConfusion ((not_startsWith_Ln e.varName hclean) ▸ hc))]
    refine ⟨_, rfl, hFi, ?_⟩
    intro d hd
    show Option.map (fun x => x * e.norm) (F.val d) = some (φ d)
    rw [hFv d hd]
    have hsv : scaleVal L e (φ d) = φ d / e.norm := by
      unfold scaleVal
      rw [if_neg hL]
    rw [hsv]
    simp only [Option.map_some']
    rw [div_mul_cancel₀ _ hnorm]

/-- C1 (amended): the round-trip law holds exactly — not merely within
tolerance — for the *baseline itself*, but only on the dates the
transform retains: for a clean single-column table over a contiguous
quarterly index fit into the pipeline, `inverse_transform (transform x)`
succeeds and returns exactly the original values on the index with the
first `ndiffs * periods` rows removed (those rows are differenced into
NaN and dropped, so the claim's "equals x for every column" fails on
them); the claimed law for suffix-contiguous continuations carrying
values different from the baseline is refuted separately by the
counterexample. -/
theorem C1_amended_roundtrip_baseline (L : LogModel) (e : GuideEntry) (b0 : ℤ)
    (N : ℕ) (φ : ℤ → ℚ) (X0 : DataFrame)
    (hp : 0 < e.periods) (hDN : e.ndiffs * e.periods < N)
    (hclean : '.' ∉ e.varName.data)
    (hnorm : e.norm ≠ 0)
    (hlognorm : e.loggable = true → e.norm = 1)
    (hexp : ∀ q : ℚ, L.exp (L.log q) = q)
    (hfit : PreprocessPipeline_fit [e]
      ⟨qrange b0 N, [(e.varName, fun d => some (φ d))]⟩ = Except.ok X0) :
    ∃ R, roundTripResult L [e] X0
        ⟨qrange b0 N, [(e.varName, fun d => some (φ d))]⟩ = Except.ok R ∧
      R.idx = qrange (b0 + (e.ndiffs * e.periods : ℕ)) (N - e.ndiffs * e.periods) ∧
      ∀ d ∈ R.idx, R.get e.varName d = some (φ d) := by
  have hN : 0 < N := lt_of_le_of_lt (Nat.zero_le _) hDN
  have hNR : 0 < N - e.ndiffs * e.periods := by omega
  have hX0 : X0 = DataFrame.asfreqQS
      ⟨qrange b0 N, [(e.varName, fun d => some (φ d))]⟩ := by
    unfold PreprocessPipeline_fit at hfit
    have hall : ((⟨qrange b0 N, [(e.varName, fun d => some (φ d))]⟩ :
        DataFrame).names.all fun c =>
          (([e].map fun e2 => e2.varName).contains c)) = true := by
      simp [DataFrame.names]
    rw [if_neg (not_not_intro hall)] at hfit
    exact (Except.ok.inj hfit).symm
  subst hX0
  have htrans := transform_single_ok L e b0 N φ hp hDN
  obtain ⟨S, hinv, hSi, hSv⟩ :=
    inverseCol_single_ok L e b0 N φ hp hDN hclean hnorm hlognorm hexp
  simp only [DataFrame.asfreqQS, List.map_cons, List.map_nil] at hinv
  unfold roundTripResult
  rw [htrans]
  simp only [PreprocessPipeline_inverse_transform, DataFrame.asfreqQS,
    List.map_cons, List.map_nil]
  rw [asfreqIdx_qrange _ _ hNR]
  simp only [List.mapM_cons, List.mapM_nil, hinv, bind, Except.bind, pure,
    Except.pure, List.map_cons, List.map_nil]
  refine ⟨_, rfl, rfl, ?_⟩
  intro d hd
  unfold DataFrame.get
  rw [if_pos hd]
  have hfind : List.find? (fun p : String × (ℤ → Option ℚ) => p.1 == e.varName)
      [(e.varName, fun d => if d ∈ S.idx then S.val d else none)] =
      some (e.varName, fun d => if d ∈ S.idx then S.val d else none) := by
    simp
  rw [hfind]
  show (if d ∈ S.idx then S.val d else none) = some (φ d)
  rw [hSi, if_pos hd]
  exact hSv d hd

/-- C1 witness: the amended round-trip at the series 100, 110, 121 on
quarters 0, 1, 2 under the scenario guide row. -/
theorem C1_amended_roundtrip_baseline_witness :
    (0 : ℕ) < eA1.periods ∧ eA1.ndiffs * eA1.periods < 3 ∧
    PreprocessPipeline_fit [eA1] ⟨qrange 0 3, [("A", fun d => some (phiC1 d))]⟩ =
      Except.ok (DataFrame.asfreqQS ⟨qrange 0 3, [("A", fun d => some (phiC1 d))]⟩) ∧
    ∃ R, roundTripResult LId [eA1]
        (DataFrame.asfreqQS ⟨qrange 0 3, [("A", fun d => some (phiC1 d))]⟩)
        ⟨qrange 0 3, [("A", fun d => some (phiC1 d))]⟩ = Except.ok R ∧
      R.idx = qrange (0 + (eA1.ndiffs * eA1.periods : ℕ)) (3 - eA1.ndiffs * eA1.periods) ∧
      ∀ d ∈ R.idx, R.get "A" d = some (phiC1 d) :=
  ⟨by decide, by decide, rfl,
   C1_amended_roundtrip_baseline LId eA1 0 3 phiC1
     (DataFrame.asfreqQS ⟨qrange 0 3, [("A", fun d => some (phiC1 d))]⟩)
     (by decide) (by decide) (by decide) (by norm_num [eA1])
     (fun h => Bool.noConfusion h) (fun _ => rfl) rfl⟩

/-- C1 counterexample: `xce` is a suffix-contiguous continuation of the
baseline's quarterly index (it extends the fitted index [0, 1] to
[0, 1, 2]) carrying values 50, 55, 60 different from the baseline's
100, 110; the round-trip composite rebuilds the series from the *stored
baseline's* level — it returns 105 at quarter 1 where `xce` holds 55 —
so `inverse_transform (transform x)` is *not* within 1e-6 relative
tolerance of `x` for continuations, refuting the claim's second
sentence. -/
theorem C1_counterexample_continuation_corrupts :
    PreprocessPipeline_fit gC8 x0ce = Except.ok x0ce.asfreqQS ∧
    x0ce.idx = [0, 1] ∧ xce.idx = [0, 1, 2] ∧
    ¬spec_roundtrip_claim LId gC8 x0ce.asfreqQS xce := by
  refine ⟨rfl, rfl, rfl, ?_⟩
  rintro ⟨R, hR, hall⟩
  obtain ⟨r, hr, htol⟩ := hall "A" (by decide) 1 (by decide) 55 rfl
  have hcomp : (match roundTripResult LId gC8 x0ce.asfreqQS xce with
      | Except.ok F => F.get "A" 1
      | Except.error _ => none) =
      some ((55 / 100 - 50 / 100 + (100 / 100 : ℚ)) * 100) := rfl
  rw [hR] at hcomp
  have hRv : R.get "A" 1 = some ((55 / 100 - 50 / 100 + (100 / 100 : ℚ)) * 100) :=
    hcomp
  rw [hRv] at hr
  have hreq : r = (55 / 100 - 50 / 100 + (100 / 100 : ℚ)) * 100 :=
    (Option.some.inj hr).symm
  rw [hreq] at htol
  rw [show (55 / 100 - 50 / 100 + (100 / 100 : ℚ)) * 100 - 55 = 50 from by norm_num,
    abs_of_nonneg (show (0 : ℚ) ≤ 50 from by norm_num),
    abs_of_nonneg (show (0 : ℚ) ≤ 55 from by norm_num)] at htol
  norm_num at htol

end FYP

